import Mathlib

/-!
Verification of the CPU process-scheduling simulator
(`process-scheduling-simulator.py`).

The scheduling core of the program is embedded shallowly:

* a Python process dict `{'pid', 'cbt', 'at', 'remaining_time',
  'waiting_time', 'turnaround_time', 'response_time'}` becomes the
  structure `Process` (the key `at` is a Lean keyword, hence the field
  name `at_`);
* the virtual clock and all derived metrics are rationals (the Python
  program mixes ints with the float `time_Context_switching`);
* every scheduling loop (`while ...` in Python) becomes a step function
  `...Body : State → EngineResult ⊕ State` iterated by `loopFuel` with a
  fuel that is proved sufficient;
* Python's `ZeroDivisionError` on `x / 0` and the explicit
  `raise ValueError` in `rr_scheduling` become the `SchedError` value in
  the `metrics` field of the result;
* in-place mutation of a dict that is an element of a Python list is
  modelled by `pyUpdate` (replace the first list element equal to the
  old value), `list.remove` by `pyRemove`, Python's `min(..., key=f)` /
  `max(..., key=f)` (which keep the first extremal element) by
  `pyMinBy` / `pyMaxBy`.
-/

/-- One process record, as in `add_process` (lines 136-144 of the
source): `remaining_time` starts at `cbt`, the metrics at `0`, and
`response_time` at the sentinel `-1`. -/
structure Process where
  pid : String
  cbt : Int
  at_ : Int
  remaining_time : Int
  waiting_time : ℚ
  turnaround_time : ℚ
  response_time : ℚ
deriving DecidableEq, Repr

/-- A fresh record as created by `add_process`. -/
def mkProcess (pid : String) (cbt at_ : Int) : Process :=
  ⟨pid, cbt, at_, cbt, 0, 0, -1⟩

/-- Errors the scheduling core can raise: the explicit
`ValueError` of `rr_scheduling` and Python's `ZeroDivisionError`. -/
inductive SchedError where
  | valueError : String → SchedError
  | zeroDivision : SchedError
deriving DecidableEq, Repr

/-- The `metrics` dictionary every engine returns. -/
structure Metrics where
  avg_waiting_time : ℚ
  avg_turnaround_time : ℚ
  avg_response_time : ℚ
  all_waiting_time : List ℚ
  all_turnaround_time : List ℚ
  all_response_time : List ℚ
deriving DecidableEq, Repr

/-- The running totals, per-process lists and Gantt data every engine
accumulates while it runs. -/
structure MetricAcc where
  total_waiting_time : ℚ
  total_turnaround_time : ℚ
  total_response_time : ℚ
  all_waiting_time : List ℚ
  all_turnaround_time : List ℚ
  all_response_time : List ℚ
  gantt : List (String × ℚ × ℚ)
deriving DecidableEq, Repr

def emptyAcc : MetricAcc := ⟨0, 0, 0, [], [], [], []⟩

/-- The metric-accumulation block that all five engines repeat verbatim
(e.g. lines 500-507).  Note the source appends the turnaround value to
`all_response_time` and the response value to `all_turnaround_time`;
this swap is reproduced faithfully. -/
def pushMetrics (a : MetricAcc) (w tn r : ℚ) : MetricAcc :=
  { a with
    total_waiting_time := a.total_waiting_time + w
    all_waiting_time := a.all_waiting_time ++ [w]
    total_turnaround_time := a.total_turnaround_time + tn
    all_response_time := a.all_response_time ++ [tn]
    total_response_time := a.total_response_time + r
    all_turnaround_time := a.all_turnaround_time ++ [r] }

/-- The `metrics` dictionary built by FCFS/SPN/HRRN/SRTF (e.g. lines
511-518): a Python division by `n = 0` raises `ZeroDivisionError`. -/
def finalizeMetrics (a : MetricAcc) (n : Nat) : Except SchedError Metrics :=
  if n = 0 then .error .zeroDivision
  else .ok ⟨a.total_waiting_time / n, a.total_turnaround_time / n,
    a.total_response_time / n,
    a.all_waiting_time, a.all_turnaround_time, a.all_response_time⟩

/-- The `metrics` dictionary built by RR (lines 703-710): each average
is guarded by `if len_processes > 0 else 0`, so no division by zero can
occur. -/
def finalizeMetricsRR (a : MetricAcc) (n : Nat) : Except SchedError Metrics :=
  .ok ⟨if 0 < n then a.total_waiting_time / n else 0,
    if 0 < n then a.total_turnaround_time / n else 0,
    if 0 < n then a.total_response_time / n else 0,
    a.all_waiting_time, a.all_turnaround_time, a.all_response_time⟩

deriving instance DecidableEq for Except

/-- What an engine run produces: `procsFinal` is the final value of the
engine's process-list variable (for FCFS this is the caller's list,
sorted and mutated in place; for SPN/HRRN/SRTF the caller's list, which
the loop drains; for RR the loop's own rebound lists, both empty at
exit), `completed` the finalized records in completion order, `gantt`
the chart data, and `metrics` the result of the final metrics
computation. -/
structure EngineResult where
  procsFinal : List Process
  completed : List Process
  gantt : List (String × ℚ × ℚ)
  metrics : Except SchedError Metrics
deriving DecidableEq, Repr

/-- Python's `min(xs, key=key)` on the non-empty list `best :: rest`:
it keeps the first element whose key is minimal. -/
def pyMinBy {β : Type} [LinearOrder β] (key : Process → β) :
    Process → List Process → Process
  | best, [] => best
  | best, x :: xs => if key x < key best then pyMinBy key x xs else pyMinBy key best xs

/-- Python's `max(xs, key=key)` on the non-empty list `best :: rest`:
it keeps the first element whose key is maximal. -/
def pyMaxBy {β : Type} [LinearOrder β] (key : Process → β) :
    Process → List Process → Process
  | best, [] => best
  | best, x :: xs => if key best < key x then pyMaxBy key x xs else pyMaxBy key best xs

/-- Python's `xs.remove(a)`: delete the first element equal to `a`
(identity: no element is equal — unreachable in the engines). -/
def pyRemove (xs : List Process) (a : Process) : List Process :=
  match xs with
  | [] => []
  | x :: rest => if x = a then rest else x :: pyRemove rest a

/-- In-place mutation of a list element: replace the first element
equal to `a` by `b`. -/
def pyUpdate (xs : List Process) (a b : Process) : List Process :=
  match xs with
  | [] => []
  | x :: rest => if x = a then b :: rest else x :: pyUpdate rest a b

/-- Iterate a loop body; `Sum.inl` is the loop's return value, `none`
means the fuel ran out before the loop finished. -/
def loopFuel {σ ρ : Type} (body : σ → ρ ⊕ σ) : Nat → σ → Option ρ
  | 0, _ => none
  | n + 1, s =>
    match body s with
    | .inl r => some r
    | .inr s' => loopFuel body n s'

/-! ## FCFS (`fcfs_scheduling`, lines 469-520) -/

structure FcfsState where
  procs : List Process
  done : List Process
  t : ℚ
  acc : MetricAcc
deriving DecidableEq, Repr

/-- One iteration of the `for process in processes` loop of
`fcfs_scheduling` (lines 482-509); the exit case builds the metrics
(lines 511-518). -/
def fcfsBody (cs : ℚ) : FcfsState → EngineResult ⊕ FcfsState
  | ⟨[], done, _t, acc⟩ =>
    .inl ⟨done, done, acc.gantt, finalizeMetrics acc done.length⟩
  | ⟨p :: rest, done, t, acc⟩ =>
    let t1 : ℚ := if t < (p.at_ : ℚ) then (p.at_ : ℚ) else t
    let p1 := if p.response_time = -1 then
        { p with response_time := t1 - (p.at_ : ℚ) } else p
    let startT : ℚ := t1
    let endT : ℚ := t1 + (p1.cbt : ℚ)
    let acc1 := { acc with gantt := acc.gantt ++ [(p1.pid, startT, endT)] }
    let p2 := { p1 with waiting_time := startT - (p1.at_ : ℚ),
                        turnaround_time := endT - (p1.at_ : ℚ) }
    let acc2 := pushMetrics acc1 p2.waiting_time p2.turnaround_time p2.response_time
    .inr ⟨rest, done ++ [p2], endT + cs, acc2⟩

/-- `fcfs_scheduling`: sort by arrival time (Python's stable in-place
sort, line 471), then run the loop; the list length is an upper bound
on the number of iterations. -/
def fcfs_scheduling (processes : List Process) (cs : ℚ) : Option EngineResult :=
  loopFuel (fcfsBody cs) (processes.length + 1)
    ⟨List.insertionSort (fun a b => a.at_ ≤ b.at_) processes, [], 0, emptyAcc⟩

/-! ## SPN (`spn_scheduling`, lines 522-576) -/

structure SpnState where
  procs : List Process
  n : Nat
  t : ℚ
  completed : List Process
  acc : MetricAcc
deriving DecidableEq, Repr

/-- The eligible set `[p for p in processes if p['at'] <= current_time]`. -/
def eligibleAt (t : ℚ) (procs : List Process) : List Process :=
  procs.filter (fun p => decide ((p.at_ : ℚ) ≤ t))

/-- One iteration of the `while processes` loop of `spn_scheduling`
(lines 535-565). -/
def spnBody (cs : ℚ) : SpnState → EngineResult ⊕ SpnState
  | ⟨[], n, _t, completed, acc⟩ =>
    .inl ⟨[], completed, acc.gantt, finalizeMetrics acc n⟩
  | ⟨p :: ps, n, t, completed, acc⟩ =>
    match eligibleAt t (p :: ps) with
    | [] => .inr ⟨p :: ps, n, t + 1, completed, acc⟩
    | e :: es =>
      let selected := pyMinBy (fun x => x.cbt) e es
      let procs2 := pyRemove (p :: ps) selected
      let sel1 := if selected.response_time = -1 then
          { selected with response_time := t - (selected.at_ : ℚ) } else selected
      let startT : ℚ := t
      let endT : ℚ := t + (sel1.cbt : ℚ)
      let acc1 := { acc with gantt := acc.gantt ++ [(sel1.pid, startT, endT)] }
      let sel2 := { sel1 with waiting_time := startT - (sel1.at_ : ℚ),
                              turnaround_time := endT - (sel1.at_ : ℚ) }
      let acc2 := pushMetrics acc1 sel2.waiting_time sel2.turnaround_time sel2.response_time
      .inr ⟨procs2, n, endT + cs, completed ++ [sel2], acc2⟩

/-- Distance (in whole idle steps of `+1`) from the clock `t` to the
arrival of `p`. -/
def gapNat (t : ℚ) (p : Process) : Nat := ⌈(p.at_ : ℚ) - t⌉₊

/-- Largest arrival gap over a process list: bounds the number of
consecutive idle `current_time += 1` steps. -/
def maxGap (t : ℚ) (l : List Process) : Nat := (l.map (gapNat t)).foldr max 0

/-- `spn_scheduling`.  Each iteration either dispatches (removing a
process) or advances an idle clock by one, so
`length + maxGap + 1` fuel suffices (proved below for valid input). -/
def spn_scheduling (processes : List Process) (cs : ℚ) : Option EngineResult :=
  loopFuel (spnBody cs) (processes.length + maxGap 0 processes + 1)
    ⟨processes, processes.length, 0, [], emptyAcc⟩

/-! ## HRRN (`hrrn_scheduling`, lines 578-635) -/

structure HrrnState where
  procs : List Process
  n : Nat
  t : ℚ
  completed : List Process
  acc : MetricAcc
deriving DecidableEq, Repr

/-- `response_ratio = (waiting_time + p['cbt']) / p['cbt']` with
`waiting_time = current_time - p['at']` (lines 596-597). -/
def response_ratio (t : ℚ) (p : Process) : ℚ :=
  ((t - (p.at_ : ℚ)) + (p.cbt : ℚ)) / (p.cbt : ℚ)

/-- One iteration of the `while processes` loop of `hrrn_scheduling`
(lines 588-625).  The source stores the ratio on each eligible dict and
then takes `max(..., key=...['response_ratio'])`; computing the same
ratio inside the selection is observationally identical (the stored key
never changes a comparison between distinct-pid records). -/
def hrrnBody (cs : ℚ) : HrrnState → EngineResult ⊕ HrrnState
  | ⟨[], n, _t, completed, acc⟩ =>
    .inl ⟨[], completed, acc.gantt, finalizeMetrics acc n⟩
  | ⟨p :: ps, n, t, completed, acc⟩ =>
    match eligibleAt t (p :: ps) with
    | [] => .inr ⟨p :: ps, n, t + 1, completed, acc⟩
    | e :: es =>
      let selected := pyMaxBy (response_ratio t) e es
      let procs2 := pyRemove (p :: ps) selected
      let sel1 := if selected.response_time = -1 then
          { selected with response_time := t - (selected.at_ : ℚ) } else selected
      let startT : ℚ := t
      let endT : ℚ := t + (sel1.cbt : ℚ)
      let acc1 := { acc with gantt := acc.gantt ++ [(sel1.pid, startT, endT)] }
      let sel2 := { sel1 with waiting_time := startT - (sel1.at_ : ℚ),
                              turnaround_time := endT - (sel1.at_ : ℚ) }
      let acc2 := pushMetrics acc1 sel2.waiting_time sel2.turnaround_time sel2.response_time
      .inr ⟨procs2, n, endT + cs, completed ++ [sel2], acc2⟩

/-- `hrrn_scheduling`. -/
def hrrn_scheduling (processes : List Process) (cs : ℚ) : Option EngineResult :=
  loopFuel (hrrnBody cs) (processes.length + maxGap 0 processes + 1)
    ⟨processes, processes.length, 0, [], emptyAcc⟩

/-! ## RR (`rr_scheduling`, lines 637-712) -/

structure RrState where
  queue : List Process
  pending : List Process
  n : Nat
  t : ℚ
  completed : List Process
  acc : MetricAcc
deriving DecidableEq, Repr

/-- Execute one quantum-capped slice of `cur` (lines 666-701): record
the response time, run for `min(time_quantum, remaining_time)`, advance
the clock by the slice plus the context switch, enqueue the pending
prefix that has now arrived, then requeue `cur` if unfinished or
finalize its metrics. -/
def rrDispatch (cs : ℚ) (q : Int) (cur : Process) (queue pending : List Process)
    (n : Nat) (t : ℚ) (completed : List Process) (acc : MetricAcc) : RrState :=
  let cur1 := if cur.response_time = -1 then
      { cur with response_time := t - (cur.at_ : ℚ) } else cur
  let exec : Int := min q cur1.remaining_time
  let startT : ℚ := t
  let endT : ℚ := t + (exec : ℚ)
  let acc1 := { acc with gantt := acc.gantt ++ [(cur1.pid, startT, endT)] }
  let cur2 := { cur1 with remaining_time := cur1.remaining_time - exec }
  let t2 : ℚ := endT + cs
  let arrived := pending.takeWhile (fun p => decide ((p.at_ : ℚ) ≤ t2))
  let pending2 := pending.dropWhile (fun p => decide ((p.at_ : ℚ) ≤ t2))
  let queue2 := queue ++ arrived
  if 0 < cur2.remaining_time then
    ⟨queue2 ++ [cur2], pending2, n, t2, completed, acc1⟩
  else
    let cur3 := { cur2 with
      turnaround_time := t2 - (cur2.at_ : ℚ),
      waiting_time := (t2 - (cur2.at_ : ℚ)) - (cur2.cbt : ℚ) }
    ⟨queue2, pending2, n, t2, completed ++ [cur3],
      pushMetrics acc1 cur3.waiting_time cur3.turnaround_time cur3.response_time⟩

/-- The just-executed process after one RR slice: response time
recorded if unset, remaining time reduced by
`min(time_quantum, remaining_time)` (lines 669-680). -/
def rrExecuted (q : Int) (cur : Process) (t : ℚ) : Process :=
  let cur1 := if cur.response_time = -1 then
      { cur with response_time := t - (cur.at_ : ℚ) } else cur
  { cur1 with remaining_time := cur1.remaining_time - min q cur1.remaining_time }

/-- The clock value after one RR slice plus the context switch
(line 681). -/
def rrPostClock (cs : ℚ) (q : Int) (cur : Process) (t : ℚ) : ℚ :=
  (t + ((min q cur.remaining_time : Int) : ℚ)) + cs

/-- One iteration of the `while process_queue or processes` loop (lines
660-701): an empty ready queue first jumps the clock to the first
pending arrival and moves that process over, then the head of the queue
is dispatched. -/
def rrBody (cs : ℚ) (q : Int) : RrState → EngineResult ⊕ RrState
  | ⟨[], [], n, _t, completed, acc⟩ =>
    .inl ⟨[], completed, acc.gantt, finalizeMetricsRR acc n⟩
  | ⟨[], p :: ps, n, _t, completed, acc⟩ =>
    .inr (rrDispatch cs q p [] ps n (p.at_ : ℚ) completed acc)
  | ⟨c :: rest, pending, n, t, completed, acc⟩ =>
    .inr (rrDispatch cs q c rest pending n t completed acc)

/-- Total remaining work, the fuel measure for RR and SRTF. -/
def sumRem (l : List Process) : Nat := (l.map (fun p => p.remaining_time.toNat)).sum

/-- `rr_scheduling`: the quantum is validated up front (lines 638-639);
at time 0 the arrived processes form the queue and the rest stay
pending (lines 657-658).  The `setdefault` calls of the source are
no-ops on fully-initialized records.  Every iteration dispatches a
slice of at least one unit, so total remaining work bounds the
iteration count. -/
def rr_scheduling (processes : List Process) (cs : ℚ) (q : Int) : Option EngineResult :=
  if q ≤ 0 then
    some ⟨processes, [], [], .error (.valueError "Time quantum must be greater than 0.")⟩
  else
    loopFuel (rrBody cs q) (sumRem processes + 1)
      ⟨processes.filter (fun p => decide ((p.at_ : ℚ) ≤ 0)),
        processes.filter (fun p => ¬ ((p.at_ : ℚ) ≤ 0)),
        processes.length, 0, [], emptyAcc⟩

/-! ## SRTF (`srtf_scheduling`, lines 714-781) -/

structure SrtfState where
  procs : List Process
  n : Nat
  t : ℚ
  completed : List Process
  acc : MetricAcc
deriving DecidableEq, Repr

/-- One iteration of the
`while processes or any(p['remaining_time'] > 0 for p in completed)`
loop (lines 726-768).  There is no quantum validation in the source.
If no process is eligible, the clock jumps to `min(p['at'] ...)`
(line 731) — taking that minimum of an empty sequence would raise a
`ValueError` in Python, modelled by the error result. -/
def srtfBody (cs : ℚ) (q : Int) : SrtfState → EngineResult ⊕ SrtfState
  | ⟨procs, n, t, completed, acc⟩ =>
    if procs = [] ∧ ¬ completed.any (fun p => decide (0 < p.remaining_time)) then
      .inl ⟨procs, completed, acc.gantt, finalizeMetrics acc n⟩
    else
      match eligibleAt t procs with
      | [] =>
        match (procs.map (fun p => p.at_)).min? with
        | none =>
          .inl ⟨procs, completed, acc.gantt,
            .error (.valueError "min() arg is an empty sequence")⟩
        | some m => .inr ⟨procs, n, (m : ℚ), completed, acc⟩
      | e :: es =>
        let selected := pyMinBy (fun x => x.remaining_time) e es
        let sel1 := if selected.response_time = -1 then
            { selected with response_time := t - (selected.at_ : ℚ) } else selected
        let exec : Int := min q sel1.remaining_time
        let startT : ℚ := t
        let endT : ℚ := t + (exec : ℚ)
        let acc1 := { acc with gantt := acc.gantt ++ [(sel1.pid, startT, endT)] }
        let sel2 := { sel1 with remaining_time := sel1.remaining_time - exec }
        let t2 : ℚ := endT + cs
        if sel2.remaining_time = 0 then
          let sel3 := { sel2 with
            turnaround_time := t2 - (sel2.at_ : ℚ),
            waiting_time := (t2 - (sel2.at_ : ℚ)) - (sel2.cbt : ℚ) }
          .inr ⟨pyRemove (pyUpdate procs selected sel3) sel3, n, t2,
            completed ++ [sel3],
            pushMetrics acc1 sel3.waiting_time sel3.turnaround_time sel3.response_time⟩
        else
          .inr ⟨pyUpdate procs selected sel2, n, t2, completed, acc1⟩

/-- The initial SRTF state. -/
def srtfInitState (processes : List Process) : SrtfState :=
  ⟨processes, processes.length, 0, [], emptyAcc⟩

/-- `srtf_scheduling`: no validation of any kind happens before the
loop.  For a positive quantum every dispatch removes at least one unit
of remaining work and an idle jump is immediately followed by a
dispatch, so `2 * sumRem + 2` fuel suffices (proved below). -/
def srtf_scheduling (processes : List Process) (cs : ℚ) (q : Int) : Option EngineResult :=
  loopFuel (srtfBody cs q) (2 * sumRem processes + 2) (srtfInitState processes)

/-! ## Validity of inputs and the arithmetic mean -/

/-- A valid simulation input in the sense of the specification: a
non-empty set of fresh records with positive burst, non-negative
arrival, a non-negative context switch and a positive quantum. -/
def ValidInput (ps : List Process) (cs : ℚ) (q : Int) : Prop :=
  ps ≠ [] ∧ 0 ≤ cs ∧ 0 < q ∧
    ∀ p ∈ ps, 0 < p.cbt ∧ 0 ≤ p.at_ ∧ p.remaining_time = p.cbt ∧
      p.waiting_time = 0 ∧ p.turnaround_time = 0 ∧ p.response_time = -1

instance (ps : List Process) (cs : ℚ) (q : Int) : Decidable (ValidInput ps cs q) := by
  unfold ValidInput
  infer_instance

/-- Arithmetic mean of a list of rationals. -/
def listMean (l : List ℚ) : ℚ := l.sum / (l.length : ℚ)

/-- The selection the specification describes for SPN: smallest burst
time, ties broken by earliest arrival, remaining ties by position.
Modelled from the spec: lexicographic minimum over `(cbt, at)` keeping
the first extremal element. -/
def spnSelectSpec (e : Process) (es : List Process) : Process :=
  pyMinBy (fun p => toLex (p.cbt, p.at_)) e es

/-! ## Generic facts about the fuelled loop -/

/-- If each continuing step preserves an invariant and strictly
decreases a natural measure, fuel above the initial measure makes the
loop finish. -/
theorem loopFuel_isSome_of_measure {σ ρ : Type} (body : σ → ρ ⊕ σ)
    (I : σ → Prop) (μ : σ → Nat)
    (hstep : ∀ s s', I s → body s = Sum.inr s' → I s' ∧ μ s' < μ s) :
    ∀ fuel s, I s → μ s < fuel → (loopFuel body fuel s).isSome := by
  intro fuel
  induction fuel with
  | zero => intro s _ h; omega
  | succ n ih =>
    intro s hI hμ
    cases hb : body s with
    | inl r => simp [loopFuel, hb]
    | inr s' =>
      obtain ⟨hI', hlt⟩ := hstep s s' hI hb
      simpa [loopFuel, hb] using ih s' hI' (by omega)

/-- Propagate a state invariant through the loop to the result. -/
theorem loopFuel_invariant {σ ρ : Type} (body : σ → ρ ⊕ σ)
    (I : σ → Prop) (J : ρ → Prop)
    (hstep : ∀ s s', I s → body s = Sum.inr s' → I s')
    (hdone : ∀ s r, I s → body s = Sum.inl r → J r) :
    ∀ fuel s r, I s → loopFuel body fuel s = some r → J r := by
  intro fuel
  induction fuel with
  | zero => intro s r _ h; simp [loopFuel] at h
  | succ n ih =>
    intro s r hI h
    cases hb : body s with
    | inl r' =>
      simp [loopFuel, hb] at h
      exact h ▸ hdone s r' hI hb
    | inr s' =>
      simp [loopFuel, hb] at h
      exact ih s' r (hstep s s' hI hb) h

/-! ## Claim theorems -/

/-- C1: the claim says each returned average equals the mean of the
corresponding returned per-process list.  On a single FCFS process with
burst 5 the code returns `avg_turnaround_time = 5` but
`all_turnaround_time = [0]` (it actually received the response times)
and `all_response_time = [5]` (the turnaround times): the appends at
lines 504 and 507 (and the same block in all five engines) swap the
two lists, so only the waiting average matches its list. -/
theorem C1_fcfs_swapped_metric_lists :
    (fcfs_scheduling [mkProcess "P1" 5 0] 0).map (fun r =>
      r.metrics.toOption.map (fun m =>
        (decide (m.avg_waiting_time = listMean m.all_waiting_time),
         decide (m.avg_turnaround_time = listMean m.all_turnaround_time),
         decide (m.avg_response_time = listMean m.all_response_time)))) =
      some (some (true, false, false)) := of_decide_eq_true (by with_unfolding_all rfl)

/-- C7 counterexample: the claim says every engine's metrics
computation fails with a divide-by-zero error iff the process set is
empty, but `rr_scheduling` guards each average with
`if len_processes > 0 else 0` and returns zero averages on the empty
set without any error. -/
theorem C7_counterexample :
    rr_scheduling [] 5 2 =
      some ⟨[], [], [], .ok ⟨0, 0, 0, [], [], []⟩⟩ := of_decide_eq_true (by with_unfolding_all rfl)

/-- C8 counterexample: `fcfs_scheduling` sorts the caller's list in
place and overwrites the metric fields of its records, so after the
call the caller's list differs from what was passed (here it is
reordered and every record mutated). -/
theorem C8_counterexample :
    (fcfs_scheduling [mkProcess "B" 2 1, mkProcess "A" 1 0] 0).map (fun r => r.procsFinal) =
      some [⟨"A", 1, 0, 1, 0, 1, 0⟩, ⟨"B", 2, 1, 2, 0, 2, 0⟩] ∧
    (fcfs_scheduling [mkProcess "B" 2 1, mkProcess "A" 1 0] 0).map (fun r => r.procsFinal) ≠
      some [mkProcess "B" 2 1, mkProcess "A" 1 0] := by
  exact of_decide_eq_true (by with_unfolding_all rfl)

/-- C5 counterexample: with input order `X(at 0, cbt 10)`,
`A(at 3, cbt 5)`, `B(at 1, cbt 5)` and no context switch, at the
decision point `t = 10` both `A` and `B` are eligible with equal burst
5 and `B` arrived earlier, yet the run dispatches `A` at 10 (Python's
`min` keeps the first of a tie, i.e. input order), while the claimed
tie-break (earliest arrival) selects `B`. -/
theorem C5_counterexample :
    (spn_scheduling [mkProcess "X" 10 0, mkProcess "A" 5 3, mkProcess "B" 5 1] 0).map
        (fun r => r.gantt) =
      some [("X", 0, 10), ("A", 10, 15), ("B", 15, 20)] ∧
    pyMinBy (fun x => x.cbt) (mkProcess "A" 5 3) [mkProcess "B" 5 1] = mkProcess "A" 5 3 ∧
    spnSelectSpec (mkProcess "A" 5 3) [mkProcess "B" 5 1] = mkProcess "B" 5 1 ∧
    (mkProcess "B" 5 1).cbt = (mkProcess "A" 5 3).cbt ∧
    (mkProcess "B" 5 1).at_ < (mkProcess "A" 5 3).at_ := by
  refine ⟨of_decide_eq_true (by with_unfolding_all rfl), of_decide_eq_true (by with_unfolding_all rfl), of_decide_eq_true (by with_unfolding_all rfl), of_decide_eq_true (by with_unfolding_all rfl), of_decide_eq_true (by with_unfolding_all rfl)⟩

/-- C6 counterexample: with input order `X(at 0, cbt 10)`,
`A(at 0, cbt 10)`, `B(at 5, cbt 5)` and no context switch, at `t = 10`
both `A` and `B` have response ratio 2 and `B` has the smaller burst,
yet the run dispatches `A` at 10 (Python's `max` keeps the first of a
tie, i.e. input order), not the claimed smallest-burst tie-break. -/
theorem C6_counterexample :
    (hrrn_scheduling [mkProcess "X" 10 0, mkProcess "A" 10 0, mkProcess "B" 5 5] 0).map
        (fun r => r.gantt) =
      some [("X", 0, 10), ("A", 10, 20), ("B", 20, 25)] ∧
    response_ratio 10 (mkProcess "A" 10 0) = response_ratio 10 (mkProcess "B" 5 5) ∧
    (mkProcess "B" 5 5).cbt < (mkProcess "A" 10 0).cbt ∧
    pyMaxBy (response_ratio 10) (mkProcess "A" 10 0) [mkProcess "B" 5 5] =
      mkProcess "A" 10 0 := by
  refine ⟨of_decide_eq_true (by with_unfolding_all rfl), of_decide_eq_true (by with_unfolding_all rfl), of_decide_eq_true (by with_unfolding_all rfl), of_decide_eq_true (by with_unfolding_all rfl)⟩

/-- C3 counterexample: input order `A(at 0, cbt 6)`, `P(at 10, cbt 1)`,
`Q(at 1, cbt 1)`, quantum 2, no context switch.  After the first slice
the clock is 2 and pending `Q` has arrival 1 ≤ 2, but the enqueue loop
stops at the non-arrived head `P` of the pending list, so the new ready
queue is `[A]` — `Q` is not enqueued at all, let alone ahead of the
requeued `A` as the claim requires. -/
theorem C3_counterexample :
    rrBody 0 2 ⟨[mkProcess "A" 6 0], [mkProcess "P" 1 10, mkProcess "Q" 1 1], 3, 0, [],
        emptyAcc⟩ =
      .inr ⟨[⟨"A", 6, 0, 4, 0, 0, 0⟩], [mkProcess "P" 1 10, mkProcess "Q" 1 1], 3, 2, [],
        ⟨0, 0, 0, [], [], [], [("A", 0, 2)]⟩⟩ ∧
    (mkProcess "Q" 1 1).at_ ≤ 2 := by
  refine ⟨of_decide_eq_true (by with_unfolding_all rfl), of_decide_eq_true (by with_unfolding_all rfl)⟩

/-- C4 counterexample: `srtf_scheduling` performs no quantum
validation.  With quantum 0 the very first loop step dispatches a
zero-length slice: it emits the interval `("P1", 0, 0)` and mutates the
record's `response_time`, with no validation error — the claim requires
a validation failure before any step. -/
theorem C4_counterexample :
    srtfBody 0 0 (srtfInitState [mkProcess "P1" 1 0]) =
      .inr ⟨[⟨"P1", 1, 0, 1, 0, 0, 0⟩], 1, 0, [], ⟨0, 0, 0, [], [], [], [("P1", 0, 0)]⟩⟩ :=
  of_decide_eq_true (by with_unfolding_all rfl)

/-! ## Helper lemmas on the Python-operation models -/

theorem pyMinBy_mem {β : Type} [LinearOrder β] (key : Process → β) (a : Process)
    (l : List Process) : pyMinBy key a l ∈ a :: l := by
  induction l generalizing a with
  | nil => simp [pyMinBy]
  | cons x xs ih =>
    simp only [pyMinBy]
    split
    · have h := ih x
      simp [List.mem_cons] at h ⊢
      tauto
    · have h := ih a
      simp [List.mem_cons] at h ⊢
      tauto

theorem pyMinBy_le {β : Type} [LinearOrder β] (key : Process → β) (a : Process)
    (l : List Process) : ∀ x ∈ a :: l, key (pyMinBy key a l) ≤ key x := by
  induction l generalizing a with
  | nil =>
    intro x hx
    simp at hx
    subst hx
    simp [pyMinBy]
  | cons x xs ih =>
    intro y hy
    simp only [pyMinBy]
    split
    · rename_i hlt
      rcases List.mem_cons.mp hy with heq | hy'
      · subst heq
        exact le_trans (ih x x (List.mem_cons_self x xs)) (le_of_lt hlt)
      · exact ih x y hy'
    · rename_i hge
      rcases List.mem_cons.mp hy with heq | hy'
      · subst heq
        exact ih _ _ (List.mem_cons_self _ xs)
      · rcases List.mem_cons.mp hy' with heq | hy''
        · subst heq
          exact le_trans (ih a a (List.mem_cons_self a xs)) (le_of_not_lt hge)
        · exact ih a y (List.mem_cons_of_mem a hy'')

theorem pyMaxBy_mem {β : Type} [LinearOrder β] (key : Process → β) (a : Process)
    (l : List Process) : pyMaxBy key a l ∈ a :: l := by
  induction l generalizing a with
  | nil => simp [pyMaxBy]
  | cons x xs ih =>
    simp only [pyMaxBy]
    split
    · have h := ih x
      simp [List.mem_cons] at h ⊢
      tauto
    · have h := ih a
      simp [List.mem_cons] at h ⊢
      tauto

theorem pyMaxBy_ge {β : Type} [LinearOrder β] (key : Process → β) (a : Process)
    (l : List Process) : ∀ x ∈ a :: l, key x ≤ key (pyMaxBy key a l) := by
  induction l generalizing a with
  | nil =>
    intro x hx
    simp at hx
    subst hx
    simp [pyMaxBy]
  | cons x xs ih =>
    intro y hy
    simp only [pyMaxBy]
    split
    · rename_i hlt
      rcases List.mem_cons.mp hy with heq | hy'
      · subst heq
        exact le_trans (le_of_lt hlt) (ih x x (List.mem_cons_self x xs))
      · exact ih x y hy'
    · rename_i hge
      rcases List.mem_cons.mp hy with heq | hy'
      · subst heq
        exact ih _ _ (List.mem_cons_self _ xs)
      · rcases List.mem_cons.mp hy' with heq | hy''
        · subst heq
          exact le_trans (le_of_not_lt hge) (ih a a (List.mem_cons_self a xs))
        · exact ih a y (List.mem_cons_of_mem a hy'')

theorem pyRemove_mem {l : List Process} {a : Process} :
    ∀ x ∈ pyRemove l a, x ∈ l := by
  induction l with
  | nil => simp [pyRemove]
  | cons y ys ih =>
    intro x hx
    simp only [pyRemove] at hx
    split at hx
    · exact List.mem_cons_of_mem y hx
    · rcases List.mem_cons.mp hx with rfl | hx'
      · exact List.mem_cons_self x ys
      · exact List.mem_cons_of_mem y (ih x hx')

theorem pyRemove_length {l : List Process} {a : Process} (h : a ∈ l) :
    (pyRemove l a).length + 1 = l.length := by
  induction l with
  | nil => simp at h
  | cons y ys ih =>
    simp only [pyRemove]
    split
    · simp
    · rcases List.mem_cons.mp h with rfl | h'
      · simp_all
      · simp only [List.length_cons]
        rw [← ih h']

theorem pyUpdate_mem {l : List Process} {a b : Process} :
    ∀ x ∈ pyUpdate l a b, x ∈ l ∨ x = b := by
  induction l with
  | nil => simp [pyUpdate]
  | cons y ys ih =>
    intro x hx
    simp only [pyUpdate] at hx
    split at hx
    · rcases List.mem_cons.mp hx with rfl | hx'
      · right; rfl
      · left; exact List.mem_cons_of_mem y hx'
    · rcases List.mem_cons.mp hx with rfl | hx'
      · left; exact List.mem_cons_self x ys
      · rcases ih x hx' with h | h
        · left; exact List.mem_cons_of_mem y h
        · right; exact h

theorem pyRemove_pyUpdate_mem {l : List Process} {a b : Process} (hb : b ∉ l) :
    ∀ x ∈ pyRemove (pyUpdate l a b) b, x ∈ l := by
  induction l with
  | nil => simp [pyUpdate, pyRemove]
  | cons y ys ih =>
    intro x hx
    have hyb : y ≠ b := fun h => hb (h ▸ List.mem_cons_self y ys)
    have hbys : b ∉ ys := fun h => hb (List.mem_cons_of_mem y h)
    simp only [pyUpdate] at hx
    split at hx
    · simp only [pyRemove, if_pos rfl] at hx
      exact List.mem_cons_of_mem y hx
    · simp only [pyRemove, if_neg hyb] at hx
      rcases List.mem_cons.mp hx with rfl | hx'
      · exact List.mem_cons_self x ys
      · exact List.mem_cons_of_mem y (ih hbys x hx')

theorem sumRem_append (l1 l2 : List Process) :
    sumRem (l1 ++ l2) = sumRem l1 + sumRem l2 := by
  simp [sumRem]

theorem sumRem_cons (p : Process) (l : List Process) :
    sumRem (p :: l) = p.remaining_time.toNat + sumRem l := by
  simp [sumRem]

theorem sumRem_pyUpdate_lt {l : List Process} {a b : Process} (ha : a ∈ l)
    (h : b.remaining_time.toNat < a.remaining_time.toNat) :
    sumRem (pyUpdate l a b) < sumRem l := by
  induction l with
  | nil => simp at ha
  | cons y ys ih =>
    simp only [pyUpdate]
    split
    · rename_i hy
      rw [sumRem_cons, sumRem_cons, hy]
      omega
    · rename_i hy
      rcases List.mem_cons.mp ha with rfl | ha'
      · exact absurd rfl hy
      · rw [sumRem_cons, sumRem_cons]
        exact Nat.add_lt_add_left (ih ha') _

theorem sumRem_pyRemove_le (l : List Process) (a : Process) :
    sumRem (pyRemove l a) ≤ sumRem l := by
  induction l with
  | nil => simp [pyRemove]
  | cons y ys ih =>
    simp only [pyRemove]
    split
    · rw [sumRem_cons]; omega
    · rw [sumRem_cons, sumRem_cons]; omega

theorem sumRem_filter_split (f : Process → Bool) (l : List Process) :
    sumRem (l.filter f) + sumRem (l.filter fun p => ! f p) = sumRem l := by
  induction l with
  | nil => simp [sumRem]
  | cons y ys ih =>
    by_cases hy : f y = true
    · simp only [List.filter_cons, hy, if_true, Bool.not_true, Bool.false_eq_true, if_false,
        sumRem_cons]
      omega
    · simp only [Bool.not_eq_true] at hy
      simp only [List.filter_cons, hy, Bool.false_eq_true, if_false, Bool.not_false, if_true,
        sumRem_cons]
      omega

/-! ## Lemmas on arrival gaps (idle-advance bounds for SPN/HRRN) -/

theorem gapNat_sub_one (t : ℚ) (p : Process) : gapNat (t + 1) p = gapNat t p - 1 := by
  unfold gapNat
  have h1 : (p.at_ : ℚ) - (t + 1) = ((p.at_ : ℚ) - t) - ((1 : ℤ) : ℚ) := by push_cast; ring
  rw [h1, ← Int.ceil_toNat, ← Int.ceil_toNat, Int.ceil_sub_int]
  omega

theorem gapNat_mono {t t' : ℚ} (h : t ≤ t') (p : Process) : gapNat t' p ≤ gapNat t p := by
  unfold gapNat
  exact Nat.ceil_mono (by linarith)

theorem gapNat_pos {t : ℚ} {p : Process} (h : t < (p.at_ : ℚ)) : 0 < gapNat t p := by
  unfold gapNat
  rw [Nat.ceil_pos]
  linarith

theorem le_maxGap_of_mem {t : ℚ} {l : List Process} {p : Process} (h : p ∈ l) :
    gapNat t p ≤ maxGap t l := by
  induction l with
  | nil => simp at h
  | cons y ys ih =>
    rcases List.mem_cons.mp h with rfl | h'
    · simp only [maxGap, List.map_cons, List.foldr_cons]
      exact le_max_left _ _
    · simp only [maxGap, List.map_cons, List.foldr_cons]
      exact le_trans (ih h') (le_max_right _ _)

theorem maxGap_le_iff {t : ℚ} {l : List Process} {k : Nat} :
    maxGap t l ≤ k ↔ ∀ p ∈ l, gapNat t p ≤ k := by
  induction l with
  | nil => simp [maxGap]
  | cons y ys ih =>
    simp only [maxGap, List.map_cons, List.foldr_cons, max_le_iff, List.mem_cons]
    constructor
    · rintro ⟨h1, h2⟩ p (rfl | hp)
      · exact h1
      · exact (ih.mp h2) p hp
    · intro h
      exact ⟨h y (Or.inl rfl), ih.mpr fun p hp => h p (Or.inr hp)⟩

theorem maxGap_le_of_subset {t t' : ℚ} {l l' : List Process}
    (hsub : ∀ x ∈ l', x ∈ l) (h : t ≤ t') : maxGap t' l' ≤ maxGap t l := by
  rw [maxGap_le_iff]
  intro p hp
  exact le_trans (gapNat_mono h p) (le_maxGap_of_mem (hsub p hp))

theorem maxGap_add_one_lt {t : ℚ} {l : List Process} (hne : l ≠ [])
    (hall : ∀ p ∈ l, t < (p.at_ : ℚ)) : maxGap (t + 1) l < maxGap t l := by
  obtain ⟨y, hy⟩ := List.exists_mem_of_ne_nil l hne
  have hpos : 0 < maxGap t l := lt_of_lt_of_le (gapNat_pos (hall y hy)) (le_maxGap_of_mem hy)
  have hle : maxGap (t + 1) l ≤ maxGap t l - 1 := by
    rw [maxGap_le_iff]
    intro p hp
    rw [gapNat_sub_one]
    have := @le_maxGap_of_mem t l p hp
    omega
  omega

/-! ## Metrics error behaviour (C7) -/

theorem fcfs_metrics_ok {ps : List Process} {cs : ℚ} {r : EngineResult}
    (hne : ps ≠ []) (h : fcfs_scheduling ps cs = some r) :
    ∃ m, r.metrics = Except.ok m := by
  refine loopFuel_invariant (fcfsBody cs)
    (fun s => s.procs.length + s.done.length = ps.length)
    (fun r => ∃ m, r.metrics = Except.ok m) ?_ ?_ _ _ r ?_ h
  · rintro ⟨procs, done, t, acc⟩ s' hI hb
    cases procs with
    | nil => simp [fcfsBody] at hb
    | cons p rest =>
      simp only [fcfsBody] at hb
      obtain rfl := Sum.inr.inj hb
      simp only [List.length_cons, List.length_append, List.length_nil,
        List.length_singleton] at hI ⊢
      omega
  · rintro ⟨procs, done, t, acc⟩ r hI hb
    cases procs with
    | cons p rest => simp [fcfsBody] at hb
    | nil =>
      simp only [fcfsBody] at hb
      obtain rfl := Sum.inl.inj hb
      simp only [List.length_nil, Nat.zero_add] at hI
      simp only [finalizeMetrics]
      rw [if_neg (fun h0 => hne (List.length_eq_zero.mp (hI ▸ h0)))]
      exact ⟨_, rfl⟩
  · simp [List.length_insertionSort]

theorem spn_metrics_ok {ps : List Process} {cs : ℚ} {r : EngineResult}
    (hne : ps ≠ []) (h : spn_scheduling ps cs = some r) :
    ∃ m, r.metrics = Except.ok m := by
  refine loopFuel_invariant (spnBody cs) (fun s => s.n = ps.length)
    (fun r => ∃ m, r.metrics = Except.ok m) ?_ ?_ _ _ r rfl h
  · rintro ⟨procs, n, t, completed, acc⟩ s' hI hb
    cases procs with
    | nil => simp [spnBody] at hb
    | cons p rest =>
      simp only [spnBody] at hb
      split at hb <;> (obtain rfl := Sum.inr.inj hb; exact hI)
  · rintro ⟨procs, n, t, completed, acc⟩ r hI hb
    cases procs with
    | cons p rest =>
      simp only [spnBody] at hb
      split at hb <;> simp at hb
    | nil =>
      simp only [spnBody] at hb
      obtain rfl := Sum.inl.inj hb
      subst hI
      simp only [finalizeMetrics]
      rw [if_neg (fun h0 => hne (List.length_eq_zero.mp h0))]
      exact ⟨_, rfl⟩

theorem hrrn_metrics_ok {ps : List Process} {cs : ℚ} {r : EngineResult}
    (hne : ps ≠ []) (h : hrrn_scheduling ps cs = some r) :
    ∃ m, r.metrics = Except.ok m := by
  refine loopFuel_invariant (hrrnBody cs) (fun s => s.n = ps.length)
    (fun r => ∃ m, r.metrics = Except.ok m) ?_ ?_ _ _ r rfl h
  · rintro ⟨procs, n, t, completed, acc⟩ s' hI hb
    cases procs with
    | nil => simp [hrrnBody] at hb
    | cons p rest =>
      simp only [hrrnBody] at hb
      split at hb <;> (obtain rfl := Sum.inr.inj hb; exact hI)
  · rintro ⟨procs, n, t, completed, acc⟩ r hI hb
    cases procs with
    | cons p rest =>
      simp only [hrrnBody] at hb
      split at hb <;> simp at hb
    | nil =>
      simp only [hrrnBody] at hb
      obtain rfl := Sum.inl.inj hb
      subst hI
      simp only [finalizeMetrics]
      rw [if_neg (fun h0 => hne (List.length_eq_zero.mp h0))]
      exact ⟨_, rfl⟩

theorem srtf_metrics_ok {ps : List Process} {cs : ℚ} {q : Int} {r : EngineResult}
    (hne : ps ≠ []) (h : srtf_scheduling ps cs q = some r) :
    ∃ m, r.metrics = Except.ok m := by
  refine loopFuel_invariant (srtfBody cs q)
    (fun s => s.n = ps.length ∧ ∀ p ∈ s.completed, p.remaining_time = 0)
    (fun r => ∃ m, r.metrics = Except.ok m) ?_ ?_ _ _ r ⟨rfl, by simp [srtfInitState]⟩ h
  · rintro ⟨procs, n, t, completed, acc⟩ s' ⟨hn, hcomp⟩ hb
    simp only [srtfBody] at hb
    split at hb
    · simp at hb
    · split at hb
      · split at hb
        · simp at hb
        · obtain rfl := Sum.inr.inj hb
          exact ⟨hn, hcomp⟩
      · split at hb
        · split at hb
          · rename_i hzero
            obtain rfl := Sum.inr.inj hb
            refine ⟨hn, ?_⟩
            intro p hp
            rcases List.mem_append.mp hp with h1 | h2
            · exact hcomp p h1
            · simp only [List.mem_cons, List.not_mem_nil, or_false] at h2
              subst h2
              exact hzero
          · obtain rfl := Sum.inr.inj hb
            exact ⟨hn, hcomp⟩
        · split at hb
          · rename_i hzero
            obtain rfl := Sum.inr.inj hb
            refine ⟨hn, ?_⟩
            intro p hp
            rcases List.mem_append.mp hp with h1 | h2
            · exact hcomp p h1
            · simp only [List.mem_cons, List.not_mem_nil, or_false] at h2
              subst h2
              exact hzero
          · obtain rfl := Sum.inr.inj hb
            exact ⟨hn, hcomp⟩
  · rintro ⟨procs, n, t, completed, acc⟩ r ⟨hn, hcomp⟩ hb
    simp only [srtfBody] at hb
    split at hb
    · obtain rfl := Sum.inl.inj hb
      subst hn
      simp only [finalizeMetrics]
      rw [if_neg (fun h0 => hne (List.length_eq_zero.mp h0))]
      exact ⟨_, rfl⟩
    · rename_i hcond
      split at hb
      · split at hb
        · rename_i hmin
          exfalso
          rw [List.min?_eq_none_iff, List.map_eq_nil_iff] at hmin
          subst hmin
          rcases not_and_or.mp hcond with hc | hc
          · exact hc rfl
          · rw [not_not, List.any_eq_true] at hc
            obtain ⟨p, hp, hpos⟩ := hc
            have := hcomp p hp
            simp at hpos
            omega
        · simp at hb
      · split at hb <;> split at hb <;> simp at hb

theorem rr_no_zero_div {ps : List Process} {cs : ℚ} {q : Int} {r : EngineResult}
    (h : rr_scheduling ps cs q = some r) :
    r.metrics ≠ Except.error SchedError.zeroDivision := by
  unfold rr_scheduling at h
  split at h
  · obtain rfl := Option.some.inj h
    simp
  · refine loopFuel_invariant (rrBody cs q) (fun _ => True)
      (fun r => r.metrics ≠ Except.error SchedError.zeroDivision) ?_ ?_ _ _ r trivial h
    · intros
      trivial
    · rintro ⟨queue, pending, n, t, completed, acc⟩ r _ hb
      cases queue with
      | cons c rest => simp [rrBody] at hb
      | nil =>
        cases pending with
        | cons p pl => simp [rrBody] at hb
        | nil =>
          simp only [rrBody] at hb
          obtain rfl := Sum.inl.inj hb
          simp [finalizeMetricsRR]

/-- C7 amended: only the four engines that divide unconditionally
(FCFS, SPN, HRRN, SRTF) fail with a `ZeroDivisionError`-class error
exactly when the process set is empty; `rr_scheduling` guards each
average with `if len_processes > 0 else 0` and therefore never raises
a divide error — on the empty set it returns zero averages (its only
pre-loop failure is the quantum `ValueError`). -/
theorem C7_amended :
    (∀ cs : ℚ, fcfs_scheduling [] cs =
      some ⟨[], [], [], .error .zeroDivision⟩) ∧
    (∀ cs : ℚ, spn_scheduling [] cs =
      some ⟨[], [], [], .error .zeroDivision⟩) ∧
    (∀ cs : ℚ, hrrn_scheduling [] cs =
      some ⟨[], [], [], .error .zeroDivision⟩) ∧
    (∀ (cs : ℚ) (q : Int), srtf_scheduling [] cs q =
      some ⟨[], [], [], .error .zeroDivision⟩) ∧
    (∀ (cs : ℚ) (q : Int), 0 < q → rr_scheduling [] cs q =
      some ⟨[], [], [], .ok ⟨0, 0, 0, [], [], []⟩⟩) ∧
    (∀ ps cs r, ps ≠ [] → fcfs_scheduling ps cs = some r →
      ∃ m, r.metrics = Except.ok m) ∧
    (∀ ps cs r, ps ≠ [] → spn_scheduling ps cs = some r →
      ∃ m, r.metrics = Except.ok m) ∧
    (∀ ps cs r, ps ≠ [] → hrrn_scheduling ps cs = some r →
      ∃ m, r.metrics = Except.ok m) ∧
    (∀ ps cs q r, ps ≠ [] → srtf_scheduling ps cs q = some r →
      ∃ m, r.metrics = Except.ok m) ∧
    (∀ ps cs q r, rr_scheduling ps cs q = some r →
      r.metrics ≠ Except.error SchedError.zeroDivision) := by
  refine ⟨fun cs => rfl, fun cs => rfl, fun cs => rfl, fun cs q => rfl, ?_,
    fun ps cs r hne h => fcfs_metrics_ok hne h,
    fun ps cs r hne h => spn_metrics_ok hne h,
    fun ps cs r hne h => hrrn_metrics_ok hne h,
    fun ps cs q r hne h => srtf_metrics_ok hne h,
    fun ps cs q r h => rr_no_zero_div h⟩
  intro cs q hq
  unfold rr_scheduling
  rw [if_neg (not_le.mpr hq)]
  rfl

/-- C7 amended, witnessed at a concrete input: the empty set under RR
with quantum 2 yields zero averages and no error. -/
theorem C7_amended_witness :
    rr_scheduling [] (7 : ℚ) 2 = some ⟨[], [], [], .ok ⟨0, 0, 0, [], [], []⟩⟩ :=
  C7_amended.2.2.2.2.1 7 2 (by norm_num)

/-! ## RR quantum validation and SRTF non-termination (C4) -/

/-- With quantum 0 and no context switch the SRTF loop on one process
reaches a fixed point (the clock and the process never change; only
the Gantt list grows), so no amount of fuel finishes it. -/
theorem srtf_q0_stuck (fuel : Nat) (acc : MetricAcc) :
    loopFuel (srtfBody 0 0) fuel ⟨[⟨"P1", 1, 0, 1, 0, 0, 0⟩], 1, 0, [], acc⟩ = none := by
  induction fuel generalizing acc with
  | zero => rfl
  | succ n ih =>
    rw [loopFuel]
    have hb : srtfBody 0 0 (⟨[⟨"P1", 1, 0, 1, 0, 0, 0⟩], 1, 0, [], acc⟩ : SrtfState) =
        Sum.inr ⟨[⟨"P1", 1, 0, 1, 0, 0, 0⟩], 1, 0, [],
          { acc with gantt := acc.gantt ++ [("P1", 0, 0)] }⟩ := by
      with_unfolding_all rfl
    rw [hb]
    exact ih _

/-- C4 amended: only RR validates the quantum — `rr_scheduling` with
`quantum ≤ 0` raises the `ValueError` before any step (no interval, no
mutation); `srtf_scheduling` has no quantum validation at all, and with
quantum 0 it executes zero-length slices forever: no fuel makes the
loop terminate, so the engine itself returns `none` (in Python, an
infinite loop). -/
theorem C4_amended :
    (∀ (ps : List Process) (cs : ℚ) (q : Int), q ≤ 0 →
      rr_scheduling ps cs q =
        some ⟨ps, [], [], .error (.valueError "Time quantum must be greater than 0.")⟩) ∧
    (∀ fuel : Nat,
      loopFuel (srtfBody 0 0) fuel (srtfInitState [mkProcess "P1" 1 0]) = none) ∧
    srtf_scheduling [mkProcess "P1" 1 0] 0 0 = none := by
  have hstuck : ∀ fuel : Nat,
      loopFuel (srtfBody 0 0) fuel (srtfInitState [mkProcess "P1" 1 0]) = none := by
    intro fuel
    cases fuel with
    | zero => rfl
    | succ n =>
      rw [loopFuel]
      have hb : srtfBody 0 0 (srtfInitState [mkProcess "P1" 1 0]) =
          Sum.inr ⟨[⟨"P1", 1, 0, 1, 0, 0, 0⟩], 1, 0, [],
            ⟨0, 0, 0, [], [], [], [("P1", 0, 0)]⟩⟩ := by
        with_unfolding_all rfl
      rw [hb]
      exact srtf_q0_stuck n _
  refine ⟨?_, hstuck, hstuck _⟩
  intro ps cs q hq
  unfold rr_scheduling
  rw [if_pos hq]

/-- C4 amended, witnessed: RR with quantum 0 on a concrete process
returns the validation error with an empty timeline and the input list
untouched. -/
theorem C4_amended_witness :
    rr_scheduling [mkProcess "A" 2 0] 1 0 =
      some ⟨[mkProcess "A" 2 0], [], [],
        .error (.valueError "Time quantum must be greater than 0.")⟩ :=
  C4_amended.1 [mkProcess "A" 2 0] 1 0 (by norm_num)

/-! ## Engines mutate the list they are given (C8) -/

theorem spn_drains {ps : List Process} {cs : ℚ} {r : EngineResult}
    (h : spn_scheduling ps cs = some r) : r.procsFinal = [] := by
  refine loopFuel_invariant (spnBody cs) (fun _ => True) (fun r => r.procsFinal = [])
    ?_ ?_ _ _ r trivial h
  · intros
    trivial
  · rintro ⟨procs, n, t, completed, acc⟩ r _ hb
    cases procs with
    | cons p rest =>
      simp only [spnBody] at hb
      split at hb <;> simp at hb
    | nil =>
      simp only [spnBody] at hb
      obtain rfl := Sum.inl.inj hb
      rfl

theorem hrrn_drains {ps : List Process} {cs : ℚ} {r : EngineResult}
    (h : hrrn_scheduling ps cs = some r) : r.procsFinal = [] := by
  refine loopFuel_invariant (hrrnBody cs) (fun _ => True) (fun r => r.procsFinal = [])
    ?_ ?_ _ _ r trivial h
  · intros
    trivial
  · rintro ⟨procs, n, t, completed, acc⟩ r _ hb
    cases procs with
    | cons p rest =>
      simp only [hrrnBody] at hb
      split at hb <;> simp at hb
    | nil =>
      simp only [hrrnBody] at hb
      obtain rfl := Sum.inl.inj hb
      rfl

theorem srtf_drains {ps : List Process} {cs : ℚ} {q : Int} {r : EngineResult}
    (h : srtf_scheduling ps cs q = some r) : r.procsFinal = [] := by
  refine loopFuel_invariant (srtfBody cs q) (fun _ => True) (fun r => r.procsFinal = [])
    ?_ ?_ _ _ r trivial h
  · intros
    trivial
  · rintro ⟨procs, n, t, completed, acc⟩ r _ hb
    simp only [srtfBody] at hb
    split at hb
    · rename_i hcond
      obtain rfl := Sum.inl.inj hb
      exact hcond.1
    · split at hb
      · split at hb
        · rename_i hmin
          rw [List.min?_eq_none_iff, List.map_eq_nil_iff] at hmin
          obtain rfl := Sum.inl.inj hb
          exact hmin
        · simp at hb
      · split at hb <;> split at hb <;> simp at hb

theorem ite_update_pid (c : Prop) [Decidable c] (p : Process) (x : ℚ) :
    (if c then { p with response_time := x } else p).pid = p.pid := by
  split <;> rfl

theorem ite_update_cbt (c : Prop) [Decidable c] (p : Process) (x : ℚ) :
    (if c then { p with response_time := x } else p).cbt = p.cbt := by
  split <;> rfl

theorem ite_update_at (c : Prop) [Decidable c] (p : Process) (x : ℚ) :
    (if c then { p with response_time := x } else p).at_ = p.at_ := by
  split <;> rfl

theorem ite_update_rem (c : Prop) [Decidable c] (p : Process) (x : ℚ) :
    (if c then { p with response_time := x } else p).remaining_time = p.remaining_time := by
  split <;> rfl

theorem rrDispatch_record_inv (cs : ℚ) (q : Int) (cur : Process)
    (queue pending : List Process) (n : Nat) (t : ℚ) (completed : List Process)
    (acc : MetricAcc) (hc : 0 < cur.cbt)
    (hq1 : ∀ p ∈ queue, 0 < p.cbt) (hp1 : ∀ p ∈ pending, 0 < p.cbt)
    (hcomp : ∀ p ∈ completed, p.remaining_time ≤ 0 ∧ p.remaining_time < p.cbt) :
    (∀ p ∈ (rrDispatch cs q cur queue pending n t completed acc).queue, 0 < p.cbt) ∧
    (∀ p ∈ (rrDispatch cs q cur queue pending n t completed acc).pending, 0 < p.cbt) ∧
    (∀ p ∈ (rrDispatch cs q cur queue pending n t completed acc).completed,
      p.remaining_time ≤ 0 ∧ p.remaining_time < p.cbt) := by
  have htake : ∀ p ∈ pending.takeWhile (fun p =>
      decide ((p.at_ : ℚ) ≤ t + ((min q cur.remaining_time : Int) : ℚ) + cs)), 0 < p.cbt :=
    fun p hp => hp1 p ((List.takeWhile_sublist _).subset hp)
  have hdrop : ∀ p ∈ pending.dropWhile (fun p =>
      decide ((p.at_ : ℚ) ≤ t + ((min q cur.remaining_time : Int) : ℚ) + cs)), 0 < p.cbt :=
    fun p hp => hp1 p ((List.dropWhile_sublist _).subset hp)
  simp only [rrDispatch, ite_update_rem]
  split
  · rename_i hpos
    refine ⟨?_, hdrop, hcomp⟩
    intro x hx
    rcases List.mem_append.mp hx with h1 | h2
    · rcases List.mem_append.mp h1 with h3 | h4
      · exact hq1 x h3
      · exact htake x h4
    · simp only [List.mem_cons, List.not_mem_nil, or_false] at h2
      subst h2
      dsimp only
      rw [ite_update_cbt]
      exact hc
  · rename_i hpos
    refine ⟨?_, hdrop, ?_⟩
    · intro x hx
      rcases List.mem_append.mp hx with h1 | h2
      · exact hq1 x h1
      · exact htake x h2
    · intro x hx
      rcases List.mem_append.mp hx with h1 | h2
      · exact hcomp x h1
      · simp only [List.mem_cons, List.not_mem_nil, or_false] at h2
        subst h2
        constructor
        · dsimp only
          omega
        · dsimp only
          rw [ite_update_cbt]
          omega

theorem rr_mutates_records {ps : List Process} {cs : ℚ} {q : Int} {r : EngineResult}
    (hv : ValidInput ps cs q) (h : rr_scheduling ps cs q = some r) :
    ∀ p ∈ r.completed, p.remaining_time ≤ 0 ∧ p.remaining_time < p.cbt := by
  obtain ⟨hne, hcs, hq, hall⟩ := hv
  unfold rr_scheduling at h
  rw [if_neg (not_le.mpr hq)] at h
  refine loopFuel_invariant (rrBody cs q)
    (fun s => (∀ p ∈ s.queue, 0 < p.cbt) ∧ (∀ p ∈ s.pending, 0 < p.cbt) ∧
      (∀ p ∈ s.completed, p.remaining_time ≤ 0 ∧ p.remaining_time < p.cbt))
    (fun r => ∀ p ∈ r.completed, p.remaining_time ≤ 0 ∧ p.remaining_time < p.cbt)
    ?_ ?_ _ _ r
    ⟨fun p hp => (hall p (List.mem_of_mem_filter hp)).1,
      fun p hp => (hall p (List.mem_of_mem_filter hp)).1, by simp⟩ h
  · rintro ⟨queue, pending, n, t, completed, acc⟩ s' ⟨hqI, hpI, hcI⟩ hb
    cases queue with
    | nil =>
      cases pending with
      | nil => simp [rrBody] at hb
      | cons p pl =>
        simp only [rrBody] at hb
        obtain rfl := Sum.inr.inj hb
        exact rrDispatch_record_inv cs q p [] pl n (p.at_ : ℚ) completed acc
          (hpI p (List.mem_cons_self p pl))
          (fun x hx => absurd hx (List.not_mem_nil x))
          (fun x hx => hpI x (List.mem_cons_of_mem _ hx)) hcI
    | cons c rest =>
      simp only [rrBody] at hb
      obtain rfl := Sum.inr.inj hb
      exact rrDispatch_record_inv cs q c rest pending n t completed acc
        (hqI c (List.mem_cons_self c rest))
        (fun x hx => hqI x (List.mem_cons_of_mem _ hx)) hpI hcI
  · rintro ⟨queue, pending, n, t, completed, acc⟩ r ⟨_, _, hcI⟩ hb
    cases queue with
    | cons c rest => simp [rrBody] at hb
    | nil =>
      cases pending with
      | cons p pl => simp [rrBody] at hb
      | nil =>
        simp only [rrBody] at hb
        obtain rfl := Sum.inl.inj hb
        exact hcI

/-- C8 amended: no engine leaves the caller's list unchanged in the
claimed sense, though they damage it in different ways.  FCFS sorts the
caller's list in place and overwrites the metric fields of its records;
SPN, HRRN and SRTF remove every element, leaving the caller's list
empty; RR rebinds a local name to fresh lists instead of restructuring
the caller's list, but it mutates the shared records in place: on valid
input every record it finalizes has been driven to
`remaining_time ≤ 0`, strictly below its burst time, so it no longer
carries the field values of the fresh input record (whose
`remaining_time` equals its positive burst time).  (The caller of
`simulate_all_algorithms` sees an unchanged list only because that
runner deep-copies before every engine call.) -/
theorem C8_amended :
    (fcfs_scheduling [mkProcess "D" 3 2, mkProcess "C" 2 0] 0).map (fun r => r.procsFinal) =
      some [⟨"C", 2, 0, 2, 0, 2, 0⟩, ⟨"D", 3, 2, 3, 0, 3, 0⟩] ∧
    (∀ ps cs r, spn_scheduling ps cs = some r → r.procsFinal = []) ∧
    (∀ ps cs r, hrrn_scheduling ps cs = some r → r.procsFinal = []) ∧
    (∀ ps cs q r, srtf_scheduling ps cs q = some r → r.procsFinal = []) ∧
    (∀ ps cs q r, ValidInput ps cs q → rr_scheduling ps cs q = some r →
      ∀ p ∈ r.completed, p.remaining_time ≤ 0 ∧ p.remaining_time < p.cbt) :=
  ⟨of_decide_eq_true (by with_unfolding_all rfl),
    fun _ _ _ h => spn_drains h,
    fun _ _ _ h => hrrn_drains h,
    fun _ _ _ _ h => srtf_drains h,
    fun _ _ _ _ hv h => rr_mutates_records hv h⟩

/-- C8 amended, witnessed: SPN on a concrete one-process list leaves
the caller's list empty, and a finalized RR record no longer matches
its fresh input record. -/
theorem C8_amended_witness :
    spn_scheduling [mkProcess "E" 1 0] 0 =
      some ⟨[], [⟨"E", 1, 0, 1, 0, 1, 0⟩], [("E", 0, 1)],
        .ok ⟨0, 1, 0, [0], [0], [1]⟩⟩ ∧
    (⟨[], [⟨"E", 1, 0, 1, 0, 1, 0⟩], [("E", 0, 1)],
        .ok ⟨0, 1, 0, [0], [0], [1]⟩⟩ : EngineResult).procsFinal = [] ∧
    ValidInput [mkProcess "E2" 2 0] 0 3 ∧
    ((⟨"E2", 2, 0, 0, 0, 2, 0⟩ : Process).remaining_time ≤ 0 ∧
      (⟨"E2", 2, 0, 0, 0, 2, 0⟩ : Process).remaining_time <
        (⟨"E2", 2, 0, 0, 0, 2, 0⟩ : Process).cbt) := by
  have h : spn_scheduling [mkProcess "E" 1 0] 0 =
      some ⟨[], [⟨"E", 1, 0, 1, 0, 1, 0⟩], [("E", 0, 1)],
        .ok ⟨0, 1, 0, [0], [0], [1]⟩⟩ :=
    of_decide_eq_true (by with_unfolding_all rfl)
  have hv : ValidInput [mkProcess "E2" 2 0] 0 3 :=
    of_decide_eq_true (by with_unfolding_all rfl)
  have h2 : rr_scheduling [mkProcess "E2" 2 0] 0 3 =
      some ⟨[], [⟨"E2", 2, 0, 0, 0, 2, 0⟩], [("E2", 0, 2)],
        .ok ⟨0, 2, 0, [0], [0], [2]⟩⟩ :=
    of_decide_eq_true (by with_unfolding_all rfl)
  refine ⟨h, C8_amended.2.1 _ _ _ h, hv, ?_⟩
  exact C8_amended.2.2.2.2 _ _ _ _ hv h2 _
    (of_decide_eq_true (by with_unfolding_all rfl))

/-! ## Selection-order characterizations (C5, C6) -/

theorem pyMinBy_decomp {β : Type} [LinearOrder β] (key : Process → β) (a : Process)
    (l : List Process) :
    ∃ l1 l2, a :: l = l1 ++ pyMinBy key a l :: l2 ∧
      (∀ x ∈ l1, key (pyMinBy key a l) < key x) ∧
      (∀ x ∈ l2, key (pyMinBy key a l) ≤ key x) := by
  induction l generalizing a with
  | nil => exact ⟨[], [], by simp [pyMinBy], by simp, by simp⟩
  | cons x xs ih =>
    by_cases hlt : key x < key a
    · obtain ⟨l1, l2, hdec, hbef, haft⟩ := ih x
      have hsel : pyMinBy key a (x :: xs) = pyMinBy key x xs := by
        simp only [pyMinBy, if_pos hlt]
      refine ⟨a :: l1, l2, ?_, ?_, by rw [hsel]; exact haft⟩
      · rw [hsel, List.cons_append, ← hdec]
      · intro y hy
        rw [hsel]
        rcases List.mem_cons.mp hy with rfl | hy'
        · exact lt_of_le_of_lt (pyMinBy_le key x xs x (List.mem_cons_self x xs)) hlt
        · exact hbef y hy'
    · obtain ⟨l1, l2, hdec, hbef, haft⟩ := ih a
      have hsel : pyMinBy key a (x :: xs) = pyMinBy key a xs := by
        simp only [pyMinBy, if_neg hlt]
      cases l1 with
      | nil =>
        simp only [List.nil_append] at hdec
        have hma : a = pyMinBy key a xs := (List.cons.injEq _ _ _ _ ▸ hdec).1
        have hxs : xs = l2 := (List.cons.injEq _ _ _ _ ▸ hdec).2
        refine ⟨[], x :: xs, ?_, by simp, ?_⟩
        · rw [hsel, List.nil_append, ← hma]
        · intro y hy
          rw [hsel]
          rcases List.mem_cons.mp hy with rfl | hy'
          · exact le_trans (le_of_eq (congrArg key hma.symm)) (le_of_not_lt hlt)
          · exact haft y (hxs ▸ hy')
      | cons h t1 =>
        simp only [List.cons_append] at hdec
        have hha : h = a := ((List.cons.injEq _ _ _ _ ▸ hdec).1).symm
        have hxs : xs = t1 ++ pyMinBy key a xs :: l2 := (List.cons.injEq _ _ _ _ ▸ hdec).2
        have hma : key (pyMinBy key a xs) < key a :=
          hbef a (hha ▸ List.mem_cons_self h t1)
        refine ⟨a :: x :: t1, l2, ?_, ?_, by rw [hsel]; exact haft⟩
        · rw [hsel]
          simp only [List.cons_append]
          rw [← hxs]
        · intro y hy
          rw [hsel]
          rcases List.mem_cons.mp hy with rfl | hy' 
          · exact hma
          · rcases List.mem_cons.mp hy' with rfl | hy''
            · exact lt_of_lt_of_le hma (le_of_not_lt hlt)
            · exact hbef y (hha ▸ List.mem_cons_of_mem h hy'')

theorem pyMaxBy_decomp {β : Type} [LinearOrder β] (key : Process → β) (a : Process)
    (l : List Process) :
    ∃ l1 l2, a :: l = l1 ++ pyMaxBy key a l :: l2 ∧
      (∀ x ∈ l1, key x < key (pyMaxBy key a l)) ∧
      (∀ x ∈ l2, key x ≤ key (pyMaxBy key a l)) := by
  induction l generalizing a with
  | nil => exact ⟨[], [], by simp [pyMaxBy], by simp, by simp⟩
  | cons x xs ih =>
    by_cases hlt : key a < key x
    · obtain ⟨l1, l2, hdec, hbef, haft⟩ := ih x
      have hsel : pyMaxBy key a (x :: xs) = pyMaxBy key x xs := by
        simp only [pyMaxBy, if_pos hlt]
      refine ⟨a :: l1, l2, ?_, ?_, by rw [hsel]; exact haft⟩
      · rw [hsel, List.cons_append, ← hdec]
      · intro y hy
        rw [hsel]
        rcases List.mem_cons.mp hy with rfl | hy'
        · exact lt_of_lt_of_le hlt (pyMaxBy_ge key x xs x (List.mem_cons_self x xs))
        · exact hbef y hy'
    · obtain ⟨l1, l2, hdec, hbef, haft⟩ := ih a
      have hsel : pyMaxBy key a (x :: xs) = pyMaxBy key a xs := by
        simp only [pyMaxBy, if_neg hlt]
      cases l1 with
      | nil =>
        simp only [List.nil_append] at hdec
        have hma : a = pyMaxBy key a xs := (List.cons.injEq _ _ _ _ ▸ hdec).1
        have hxs : xs = l2 := (List.cons.injEq _ _ _ _ ▸ hdec).2
        refine ⟨[], x :: xs, ?_, by simp, ?_⟩
        · rw [hsel, List.nil_append, ← hma]
        · intro y hy
          rw [hsel]
          rcases List.mem_cons.mp hy with rfl | hy'
          · exact le_trans (le_of_not_lt hlt) (le_of_eq (congrArg key hma))
          · exact haft y (hxs ▸ hy')
      | cons h t1 =>
        simp only [List.cons_append] at hdec
        have hha : h = a := ((List.cons.injEq _ _ _ _ ▸ hdec).1).symm
        have hxs : xs = t1 ++ pyMaxBy key a xs :: l2 := (List.cons.injEq _ _ _ _ ▸ hdec).2
        have hma : key a < key (pyMaxBy key a xs) :=
          hbef a (hha ▸ List.mem_cons_self h t1)
        refine ⟨a :: x :: t1, l2, ?_, ?_, by rw [hsel]; exact haft⟩
        · rw [hsel]
          simp only [List.cons_append]
          rw [← hxs]
        · intro y hy
          rw [hsel]
          rcases List.mem_cons.mp hy with rfl | hy'
          · exact hma
          · rcases List.mem_cons.mp hy' with rfl | hy''
            · exact lt_of_le_of_lt (le_of_not_lt hlt) hma
            · exact hbef y (hha ▸ List.mem_cons_of_mem h hy'')

/-- C5 amended: at every SPN decision point the dispatched process is
`min(eligible, key=cbt)` — the eligible process with the smallest burst
time where a tie is broken by the earliest position in the current list
(which preserves the original input order), not by arrival time.  The
decomposition states this exactly: every eligible process strictly
before the selected one has a strictly larger burst, and every one
after it has a burst at least as large. -/
theorem C5_amended :
    (∀ (cs : ℚ) (s s' : SpnState) (p e : Process) (ps es : List Process),
      s.procs = p :: ps → eligibleAt s.t s.procs = e :: es →
      spnBody cs s = Sum.inr s' →
      s'.procs = pyRemove s.procs (pyMinBy (fun x => x.cbt) e es) ∧
      s'.acc.gantt = s.acc.gantt ++
        [((pyMinBy (fun x => x.cbt) e es).pid, s.t,
          s.t + ((pyMinBy (fun x => x.cbt) e es).cbt : ℚ))]) ∧
    (∀ (e : Process) (es : List Process), ∃ l1 l2,
      e :: es = l1 ++ pyMinBy (fun x => x.cbt) e es :: l2 ∧
      (∀ x ∈ l1, (pyMinBy (fun x => x.cbt) e es).cbt < x.cbt) ∧
      (∀ x ∈ l2, (pyMinBy (fun x => x.cbt) e es).cbt ≤ x.cbt)) := by
  constructor
  · rintro cs ⟨procs, n, t, completed, acc⟩ s' p e ps es hp he hb
    dsimp only at hp he hb ⊢
    subst hp
    simp only [spnBody, he] at hb
    obtain rfl := Sum.inr.inj hb
    exact ⟨rfl, by simp [pushMetrics, ite_update_pid, ite_update_cbt]⟩
  · exact fun e es => pyMinBy_decomp (fun x => x.cbt) e es

/-- C5 amended, witnessed at the decision point `t = 10` of the
counterexample input: the dispatched process is `A` (first of the tie
in input order). -/
theorem C5_amended_witness :
    eligibleAt 10 [mkProcess "A" 5 3, mkProcess "B" 5 1] =
      [mkProcess "A" 5 3, mkProcess "B" 5 1] ∧
    (⟨[mkProcess "B" 5 1], 3, 15, [⟨"A", 5, 3, 5, 7, 12, 7⟩],
        ⟨7, 12, 7, [7], [7], [12], [("A", 10, 15)]⟩⟩ : SpnState).procs =
      pyRemove [mkProcess "A" 5 3, mkProcess "B" 5 1]
        (pyMinBy (fun x => x.cbt) (mkProcess "A" 5 3) [mkProcess "B" 5 1]) := by
  have he : eligibleAt 10 [mkProcess "A" 5 3, mkProcess "B" 5 1] =
      [mkProcess "A" 5 3, mkProcess "B" 5 1] :=
    of_decide_eq_true (by with_unfolding_all rfl)
  refine ⟨he, ?_⟩
  exact (C5_amended.1 0 ⟨[mkProcess "A" 5 3, mkProcess "B" 5 1], 3, 10, [], emptyAcc⟩
      ⟨[mkProcess "B" 5 1], 3, 15, [⟨"A", 5, 3, 5, 7, 12, 7⟩],
        ⟨7, 12, 7, [7], [7], [12], [("A", 10, 15)]⟩⟩ _ _ _ _ rfl he
    (of_decide_eq_true (by with_unfolding_all rfl))).1

/-- C6 amended: at every HRRN decision point the dispatched process is
`max(eligible, key=response_ratio)` — the eligible process with the
highest response ratio where a tie is broken by the earliest position
in the current list (original input order), not by smallest burst or
earliest arrival.  The decomposition states this exactly. -/
theorem C6_amended :
    (∀ (cs : ℚ) (s s' : HrrnState) (p e : Process) (ps es : List Process),
      s.procs = p :: ps → eligibleAt s.t s.procs = e :: es →
      hrrnBody cs s = Sum.inr s' →
      s'.procs = pyRemove s.procs (pyMaxBy (response_ratio s.t) e es) ∧
      s'.acc.gantt = s.acc.gantt ++
        [((pyMaxBy (response_ratio s.t) e es).pid, s.t,
          s.t + ((pyMaxBy (response_ratio s.t) e es).cbt : ℚ))]) ∧
    (∀ (t : ℚ) (e : Process) (es : List Process), ∃ l1 l2,
      e :: es = l1 ++ pyMaxBy (response_ratio t) e es :: l2 ∧
      (∀ x ∈ l1, response_ratio t x < response_ratio t (pyMaxBy (response_ratio t) e es)) ∧
      (∀ x ∈ l2, response_ratio t x ≤ response_ratio t (pyMaxBy (response_ratio t) e es))) := by
  constructor
  · rintro cs ⟨procs, n, t, completed, acc⟩ s' p e ps es hp he hb
    dsimp only at hp he hb ⊢
    subst hp
    simp only [hrrnBody, he] at hb
    obtain rfl := Sum.inr.inj hb
    exact ⟨rfl, by simp [pushMetrics, ite_update_pid, ite_update_cbt]⟩
  · exact fun t e es => pyMaxBy_decomp (response_ratio t) e es

/-- C6 amended, witnessed at the decision point `t = 10` of the
counterexample input: the dispatched process is `A` (first of the
ratio tie in input order). -/
theorem C6_amended_witness :
    eligibleAt 10 [mkProcess "A" 10 0, mkProcess "B" 5 5] =
      [mkProcess "A" 10 0, mkProcess "B" 5 5] ∧
    (⟨[mkProcess "B" 5 5], 3, 20, [⟨"A", 10, 0, 10, 10, 20, 10⟩],
        ⟨10, 20, 10, [10], [10], [20], [("A", 10, 20)]⟩⟩ : HrrnState).procs =
      pyRemove [mkProcess "A" 10 0, mkProcess "B" 5 5]
        (pyMaxBy (response_ratio 10) (mkProcess "A" 10 0) [mkProcess "B" 5 5]) := by
  have he : eligibleAt 10 [mkProcess "A" 10 0, mkProcess "B" 5 5] =
      [mkProcess "A" 10 0, mkProcess "B" 5 5] :=
    of_decide_eq_true (by with_unfolding_all rfl)
  refine ⟨he, ?_⟩
  exact (C6_amended.1 0 ⟨[mkProcess "A" 10 0, mkProcess "B" 5 5], 3, 10, [], emptyAcc⟩
      ⟨[mkProcess "B" 5 5], 3, 20, [⟨"A", 10, 0, 10, 10, 20, 10⟩],
        ⟨10, 20, 10, [10], [10], [20], [("A", 10, 20)]⟩⟩
      _ _ _ _ rfl he (of_decide_eq_true (by with_unfolding_all rfl))).1

/-! ## RR requeue ordering (C3) -/

theorem takeWhile_eq_filter_of_sorted {T : ℚ} {l : List Process}
    (h : List.Pairwise (fun a b => a.at_ ≤ b.at_) l) :
    l.takeWhile (fun p => decide ((p.at_ : ℚ) ≤ T)) =
      l.filter (fun p => decide ((p.at_ : ℚ) ≤ T)) := by
  induction l with
  | nil => rfl
  | cons x xs ih =>
    obtain ⟨hx, hxs⟩ := List.pairwise_cons.mp h
    by_cases hxT : (x.at_ : ℚ) ≤ T
    · simp only [List.takeWhile_cons, List.filter_cons, hxT, decide_True, if_true]
      rw [ih hxs]
    · have hnil : xs.filter (fun p => decide ((p.at_ : ℚ) ≤ T)) = [] := by
        rw [List.filter_eq_nil_iff]
        intro y hy
        simp only [decide_eq_true_eq]
        intro hle
        exact hxT (le_trans (by exact_mod_cast hx y hy) hle)
      simp only [List.takeWhile_cons, List.filter_cons, hxT, decide_False, if_false, hnil]
      rfl

/-- C3 amended: after one executed RR slice the new state is exactly —
clock advanced by the slice plus context switch; the pending list loses
its maximal arrived PREFIX (input order), which is appended to the
queue first; then the just-executed process is requeued if and only if
its remaining time is positive, and otherwise finalized into
`completed` and never requeued.  When the pending list is sorted by
arrival, that prefix is exactly every arrived pending process. -/
theorem C3_amended :
    ∀ (cs : ℚ) (q : Int) (cur : Process) (queue pending : List Process) (n : Nat)
      (t : ℚ) (completed : List Process) (acc : MetricAcc),
      (rrDispatch cs q cur queue pending n t completed acc).t = rrPostClock cs q cur t ∧
      (rrDispatch cs q cur queue pending n t completed acc).pending =
        pending.dropWhile (fun p => decide ((p.at_ : ℚ) ≤ rrPostClock cs q cur t)) ∧
      (0 < (rrExecuted q cur t).remaining_time →
        (rrDispatch cs q cur queue pending n t completed acc).queue =
          queue ++ pending.takeWhile (fun p => decide ((p.at_ : ℚ) ≤ rrPostClock cs q cur t)) ++
            [rrExecuted q cur t] ∧
        (rrDispatch cs q cur queue pending n t completed acc).completed = completed) ∧
      ((rrExecuted q cur t).remaining_time ≤ 0 →
        (rrDispatch cs q cur queue pending n t completed acc).queue =
          queue ++ pending.takeWhile (fun p => decide ((p.at_ : ℚ) ≤ rrPostClock cs q cur t)) ∧
        (rrDispatch cs q cur queue pending n t completed acc).completed =
          completed ++ [{ rrExecuted q cur t with
            turnaround_time := rrPostClock cs q cur t - ((rrExecuted q cur t).at_ : ℚ),
            waiting_time := (rrPostClock cs q cur t - ((rrExecuted q cur t).at_ : ℚ)) -
              ((rrExecuted q cur t).cbt : ℚ) }]) ∧
      (List.Pairwise (fun a b => a.at_ ≤ b.at_) pending →
        pending.takeWhile (fun p => decide ((p.at_ : ℚ) ≤ rrPostClock cs q cur t)) =
          pending.filter (fun p => decide ((p.at_ : ℚ) ≤ rrPostClock cs q cur t))) := by
  intro cs q cur queue pending n t completed acc
  by_cases hresp : cur.response_time = -1
  · simp only [rrDispatch, rrExecuted, rrPostClock, if_pos hresp]
    by_cases hpos : 0 < cur.remaining_time - min q cur.remaining_time
    · rw [if_pos hpos]
      exact ⟨rfl, rfl, fun _ => ⟨rfl, rfl⟩, fun hle => absurd hpos (by omega),
        fun hs => takeWhile_eq_filter_of_sorted hs⟩
    · rw [if_neg hpos]
      exact ⟨rfl, rfl, fun hgt => absurd hgt hpos, fun _ => ⟨rfl, rfl⟩,
        fun hs => takeWhile_eq_filter_of_sorted hs⟩
  · simp only [rrDispatch, rrExecuted, rrPostClock, if_neg hresp]
    by_cases hpos : 0 < cur.remaining_time - min q cur.remaining_time
    · rw [if_pos hpos]
      exact ⟨rfl, rfl, fun _ => ⟨rfl, rfl⟩, fun hle => absurd hpos (by omega),
        fun hs => takeWhile_eq_filter_of_sorted hs⟩
    · rw [if_neg hpos]
      exact ⟨rfl, rfl, fun hgt => absurd hgt hpos, fun _ => ⟨rfl, rfl⟩,
        fun hs => takeWhile_eq_filter_of_sorted hs⟩

/-- C3 amended, witnessed: a mid-run RR dispatch (process `A` with 4
remaining, quantum 2, clock 2, pending `Q(at 1)`) puts the arrived `Q`
ahead of the requeued `A`. -/
theorem C3_amended_witness :
    (rrDispatch 0 2 ⟨"A", 6, 0, 4, 0, 0, 0⟩ [] [mkProcess "Q" 1 1] 3 2 [] emptyAcc).queue =
      [mkProcess "Q" 1 1, ⟨"A", 6, 0, 2, 0, 0, 0⟩] := by
  have h := (C3_amended 0 2 ⟨"A", 6, 0, 4, 0, 0, 0⟩ [] [mkProcess "Q" 1 1] 3 2 []
    emptyAcc).2.2.1 (of_decide_eq_true (by with_unfolding_all rfl))
  exact h.1.trans (of_decide_eq_true (by with_unfolding_all rfl))

/-! ## Metric consistency (C2) -/

theorem rrDispatch_consistency {cs : ℚ} {q : Int} {cur : Process}
    {queue pending : List Process} {n : Nat} {t : ℚ} {completed : List Process}
    {acc : MetricAcc}
    (hI : ∀ p ∈ completed, p.turnaround_time - p.waiting_time = (p.cbt : ℚ)) :
    ∀ p ∈ (rrDispatch cs q cur queue pending n t completed acc).completed,
      p.turnaround_time - p.waiting_time = (p.cbt : ℚ) := by
  simp only [rrDispatch]
  repeat' split
  all_goals
    first
      | exact hI
      | (intro x hx
         rcases List.mem_append.mp hx with h1 | h2
         · exact hI x h1
         · simp only [List.mem_cons, List.not_mem_nil, or_false] at h2
           subst h2
           dsimp only
           ring)

/-- C2: for every completed process under every one of the five
policies, on valid input, `turnaround_time - waiting_time = burst_time`
(FCFS/SPN/HRRN set `waiting = start - at` and `turnaround = end - at`
with `end = start + cbt`; RR/SRTF set `waiting = turnaround - cbt`
directly). -/
theorem C2_metric_consistency :
    ∀ (ps : List Process) (cs : ℚ) (q : Int), ValidInput ps cs q →
      (∀ r, fcfs_scheduling ps cs = some r →
        ∀ p ∈ r.completed, p.turnaround_time - p.waiting_time = (p.cbt : ℚ)) ∧
      (∀ r, spn_scheduling ps cs = some r →
        ∀ p ∈ r.completed, p.turnaround_time - p.waiting_time = (p.cbt : ℚ)) ∧
      (∀ r, hrrn_scheduling ps cs = some r →
        ∀ p ∈ r.completed, p.turnaround_time - p.waiting_time = (p.cbt : ℚ)) ∧
      (∀ r, rr_scheduling ps cs q = some r →
        ∀ p ∈ r.completed, p.turnaround_time - p.waiting_time = (p.cbt : ℚ)) ∧
      (∀ r, srtf_scheduling ps cs q = some r →
        ∀ p ∈ r.completed, p.turnaround_time - p.waiting_time = (p.cbt : ℚ)) := by
  intro ps cs q _hv
  refine ⟨?_, ?_, ?_, ?_, ?_⟩
  · intro r h
    refine loopFuel_invariant (fcfsBody cs)
      (fun s => ∀ p ∈ s.done, p.turnaround_time - p.waiting_time = (p.cbt : ℚ))
      (fun r => ∀ p ∈ r.completed, p.turnaround_time - p.waiting_time = (p.cbt : ℚ))
      ?_ ?_ _ _ r (by simp) h
    · rintro ⟨procs, done, t, acc⟩ s' hI hb
      cases procs with
      | nil => simp [fcfsBody] at hb
      | cons p rest =>
        simp only [fcfsBody] at hb
        obtain rfl := Sum.inr.inj hb
        intro x hx
        rcases List.mem_append.mp hx with h1 | h2
        · exact hI x h1
        · simp only [List.mem_cons, List.not_mem_nil, or_false] at h2
          subst h2
          dsimp only
          ring
    · rintro ⟨procs, done, t, acc⟩ r hI hb
      cases procs with
      | cons p rest => simp [fcfsBody] at hb
      | nil =>
        simp only [fcfsBody] at hb
        obtain rfl := Sum.inl.inj hb
        exact hI
  · intro r h
    refine loopFuel_invariant (spnBody cs)
      (fun s => ∀ p ∈ s.completed, p.turnaround_time - p.waiting_time = (p.cbt : ℚ))
      (fun r => ∀ p ∈ r.completed, p.turnaround_time - p.waiting_time = (p.cbt : ℚ))
      ?_ ?_ _ _ r (by simp) h
    · rintro ⟨procs, n, t, completed, acc⟩ s' hI hb
      cases procs with
      | nil => simp [spnBody] at hb
      | cons p rest =>
        simp only [spnBody] at hb
        split at hb
        · obtain rfl := Sum.inr.inj hb
          exact hI
        · obtain rfl := Sum.inr.inj hb
          intro x hx
          rcases List.mem_append.mp hx with h1 | h2
          · exact hI x h1
          · simp only [List.mem_cons, List.not_mem_nil, or_false] at h2
            subst h2
            dsimp only
            ring
    · rintro ⟨procs, n, t, completed, acc⟩ r hI hb
      cases procs with
      | cons p rest =>
        simp only [spnBody] at hb
        split at hb <;> simp at hb
      | nil =>
        simp only [spnBody] at hb
        obtain rfl := Sum.inl.inj hb
        exact hI
  · intro r h
    refine loopFuel_invariant (hrrnBody cs)
      (fun s => ∀ p ∈ s.completed, p.turnaround_time - p.waiting_time = (p.cbt : ℚ))
      (fun r => ∀ p ∈ r.completed, p.turnaround_time - p.waiting_time = (p.cbt : ℚ))
      ?_ ?_ _ _ r (by simp) h
    · rintro ⟨procs, n, t, completed, acc⟩ s' hI hb
      cases procs with
      | nil => simp [hrrnBody] at hb
      | cons p rest =>
        simp only [hrrnBody] at hb
        split at hb
        · obtain rfl := Sum.inr.inj hb
          exact hI
        · obtain rfl := Sum.inr.inj hb
          intro x hx
          rcases List.mem_append.mp hx with h1 | h2
          · exact hI x h1
          · simp only [List.mem_cons, List.not_mem_nil, or_false] at h2
            subst h2
            dsimp only
            ring
    · rintro ⟨procs, n, t, completed, acc⟩ r hI hb
      cases procs with
      | cons p rest =>
        simp only [hrrnBody] at hb
        split at hb <;> simp at hb
      | nil =>
        simp only [hrrnBody] at hb
        obtain rfl := Sum.inl.inj hb
        exact hI
  · intro r h
    unfold rr_scheduling at h
    split at h
    · obtain rfl := Option.some.inj h
      simp
    · refine loopFuel_invariant (rrBody cs q)
        (fun s => ∀ p ∈ s.completed, p.turnaround_time - p.waiting_time = (p.cbt : ℚ))
        (fun r => ∀ p ∈ r.completed, p.turnaround_time - p.waiting_time = (p.cbt : ℚ))
        ?_ ?_ _ _ r (by simp) h
      · rintro ⟨queue, pending, n, t, completed, acc⟩ s' hI hb
        cases queue with
        | nil =>
          cases pending with
          | nil => simp [rrBody] at hb
          | cons p pl =>
            simp only [rrBody] at hb
            obtain rfl := Sum.inr.inj hb
            exact rrDispatch_consistency hI
        | cons c rest =>
          simp only [rrBody] at hb
          obtain rfl := Sum.inr.inj hb
          exact rrDispatch_consistency hI
      · rintro ⟨queue, pending, n, t, completed, acc⟩ r hI hb
        cases queue with
        | cons c rest => simp [rrBody] at hb
        | nil =>
          cases pending with
          | cons p pl => simp [rrBody] at hb
          | nil =>
            simp only [rrBody] at hb
            obtain rfl := Sum.inl.inj hb
            exact hI
  · intro r h
    refine loopFuel_invariant (srtfBody cs q)
      (fun s => ∀ p ∈ s.completed, p.turnaround_time - p.waiting_time = (p.cbt : ℚ))
      (fun r => ∀ p ∈ r.completed, p.turnaround_time - p.waiting_time = (p.cbt : ℚ))
      ?_ ?_ _ _ r (by simp [srtfInitState]) h
    · rintro ⟨procs, n, t, completed, acc⟩ s' hI hb
      simp only [srtfBody] at hb
      split at hb
      · simp at hb
      · split at hb
        · split at hb
          · simp at hb
          · obtain rfl := Sum.inr.inj hb
            exact hI
        · split at hb
          all_goals split at hb
          all_goals obtain rfl := Sum.inr.inj hb
          all_goals
            first
              | exact hI
              | (intro x hx
                 rcases List.mem_append.mp hx with h1 | h2
                 · exact hI x h1
                 · simp only [List.mem_cons, List.not_mem_nil, or_false] at h2
                   subst h2
                   dsimp only
                   ring)
    · rintro ⟨procs, n, t, completed, acc⟩ r hI hb
      simp only [srtfBody] at hb
      split at hb
      · obtain rfl := Sum.inl.inj hb
        exact hI
      · split at hb
        · split at hb
          · obtain rfl := Sum.inl.inj hb
            exact hI
          · simp at hb
        · split at hb <;> split at hb <;> simp at hb

/-- C2, witnessed: FCFS on a single valid process. -/
theorem C2_witness :
    ValidInput [mkProcess "W" 3 0] 0 2 ∧
    (⟨"W", 3, 0, 3, 0, 3, 0⟩ : Process).turnaround_time -
      (⟨"W", 3, 0, 3, 0, 3, 0⟩ : Process).waiting_time =
      ((⟨"W", 3, 0, 3, 0, 3, 0⟩ : Process).cbt : ℚ) := by
  have hv : ValidInput [mkProcess "W" 3 0] 0 2 :=
    of_decide_eq_true (by with_unfolding_all rfl)
  refine ⟨hv, ?_⟩
  exact (C2_metric_consistency _ _ _ hv).1
    ⟨[⟨"W", 3, 0, 3, 0, 3, 0⟩], [⟨"W", 3, 0, 3, 0, 3, 0⟩], [("W", 0, 3)],
      .ok ⟨0, 3, 0, [0], [0], [3]⟩⟩
    (of_decide_eq_true (by with_unfolding_all rfl)) _
    (of_decide_eq_true (by with_unfolding_all rfl))

/-! ## Termination (C9) -/

theorem fcfs_total (ps : List Process) (cs : ℚ) : (fcfs_scheduling ps cs).isSome := by
  refine loopFuel_isSome_of_measure (fcfsBody cs) (fun _ => True) (fun s => s.procs.length)
    ?_ _ _ trivial ?_
  · rintro ⟨procs, done, t, acc⟩ s' _ hb
    cases procs with
    | nil => simp [fcfsBody] at hb
    | cons p rest =>
      simp only [fcfsBody] at hb
      obtain rfl := Sum.inr.inj hb
      refine ⟨trivial, ?_⟩
      dsimp only
      simp only [List.length_cons]
      omega
  · dsimp only
    rw [List.length_insertionSort]
    omega

theorem spn_total (ps : List Process) (cs : ℚ) (hcs : 0 ≤ cs)
    (hcbt : ∀ p ∈ ps, 0 < p.cbt) : (spn_scheduling ps cs).isSome := by
  refine loopFuel_isSome_of_measure (spnBody cs)
    (fun s => ∀ p ∈ s.procs, 0 < p.cbt)
    (fun s => s.procs.length + maxGap s.t s.procs) ?_ _ _ hcbt ?_
  · rintro ⟨procs, n, t, completed, acc⟩ s' hI hb
    cases procs with
    | nil => simp [spnBody] at hb
    | cons p rest =>
      simp only [spnBody] at hb
      split at hb
      · rename_i helig
        obtain rfl := Sum.inr.inj hb
        refine ⟨hI, ?_⟩
        dsimp only
        have hall : ∀ x ∈ p :: rest, t < (x.at_ : ℚ) := by
          intro x hx
          have h1 := List.filter_eq_nil_iff.mp helig x hx
          simp only [decide_eq_true_eq] at h1
          exact lt_of_not_le h1
        have h2 := @maxGap_add_one_lt t (p :: rest) (by simp) hall
        omega
      · rename_i e es helig
        obtain rfl := Sum.inr.inj hb
        have hsel_mem : pyMinBy (fun x => x.cbt) e es ∈ p :: rest := by
          have h1 := pyMinBy_mem (fun x => x.cbt) e es
          rw [← helig] at h1
          exact List.mem_of_mem_filter h1
        refine ⟨fun x hx => hI x (pyRemove_mem x hx), ?_⟩
        dsimp only
        have hlen := pyRemove_length hsel_mem
        have hcbtsel : (0 : ℚ) < ((pyMinBy (fun x => x.cbt) e es).cbt : ℚ) := by
          exact_mod_cast hI _ hsel_mem
        simp only [ite_update_cbt]
        have hmg : maxGap (t + ((pyMinBy (fun x => x.cbt) e es).cbt : ℚ) + cs)
            (pyRemove (p :: rest) (pyMinBy (fun x => x.cbt) e es)) ≤ maxGap t (p :: rest) :=
          maxGap_le_of_subset (fun x hx => pyRemove_mem x hx) (by linarith)
        omega
  · dsimp only
    omega

theorem hrrn_total (ps : List Process) (cs : ℚ) (hcs : 0 ≤ cs)
    (hcbt : ∀ p ∈ ps, 0 < p.cbt) : (hrrn_scheduling ps cs).isSome := by
  refine loopFuel_isSome_of_measure (hrrnBody cs)
    (fun s => ∀ p ∈ s.procs, 0 < p.cbt)
    (fun s => s.procs.length + maxGap s.t s.procs) ?_ _ _ hcbt ?_
  · rintro ⟨procs, n, t, completed, acc⟩ s' hI hb
    cases procs with
    | nil => simp [hrrnBody] at hb
    | cons p rest =>
      simp only [hrrnBody] at hb
      split at hb
      · rename_i helig
        obtain rfl := Sum.inr.inj hb
        refine ⟨hI, ?_⟩
        dsimp only
        have hall : ∀ x ∈ p :: rest, t < (x.at_ : ℚ) := by
          intro x hx
          have h1 := List.filter_eq_nil_iff.mp helig x hx
          simp only [decide_eq_true_eq] at h1
          exact lt_of_not_le h1
        have h2 := @maxGap_add_one_lt t (p :: rest) (by simp) hall
        omega
      · rename_i e es helig
        obtain rfl := Sum.inr.inj hb
        have hsel_mem : pyMaxBy (response_ratio t) e es ∈ p :: rest := by
          have h1 := pyMaxBy_mem (response_ratio t) e es
          rw [← helig] at h1
          exact List.mem_of_mem_filter h1
        refine ⟨fun x hx => hI x (pyRemove_mem x hx), ?_⟩
        dsimp only
        have hlen := pyRemove_length hsel_mem
        have hcbtsel : (0 : ℚ) < ((pyMaxBy (response_ratio t) e es).cbt : ℚ) := by
          exact_mod_cast hI _ hsel_mem
        simp only [ite_update_cbt]
        have hmg : maxGap (t + ((pyMaxBy (response_ratio t) e es).cbt : ℚ) + cs)
            (pyRemove (p :: rest) (pyMaxBy (response_ratio t) e es)) ≤ maxGap t (p :: rest) :=
          maxGap_le_of_subset (fun x hx => pyRemove_mem x hx) (by linarith)
        omega
  · dsimp only
    omega

theorem rrDispatch_measure (cs : ℚ) (q : Int) (cur : Process)
    (queue pending : List Process) (n : Nat) (t : ℚ) (completed : List Process)
    (acc : MetricAcc) (hq : 0 < q) (hcur : 0 < cur.remaining_time)
    (hqueue : ∀ p ∈ queue, 0 < p.remaining_time)
    (hpend : ∀ p ∈ pending, 0 < p.remaining_time) :
    (∀ p ∈ (rrDispatch cs q cur queue pending n t completed acc).queue,
      0 < p.remaining_time) ∧
    (∀ p ∈ (rrDispatch cs q cur queue pending n t completed acc).pending,
      0 < p.remaining_time) ∧
    sumRem (rrDispatch cs q cur queue pending n t completed acc).queue +
      sumRem (rrDispatch cs q cur queue pending n t completed acc).pending <
        cur.remaining_time.toNat + (sumRem queue + sumRem pending) := by
  have hsplit : sumRem (pending.takeWhile fun p =>
        decide ((p.at_ : ℚ) ≤ t + ((min q cur.remaining_time : Int) : ℚ) + cs)) +
      sumRem (pending.dropWhile fun p =>
        decide ((p.at_ : ℚ) ≤ t + ((min q cur.remaining_time : Int) : ℚ) + cs)) =
      sumRem pending := by
    rw [← sumRem_append, List.takeWhile_append_dropWhile]
  have hexec : 1 ≤ min q cur.remaining_time := le_min (by omega) (by omega)
  have htake : ∀ p ∈ pending.takeWhile (fun p =>
      decide ((p.at_ : ℚ) ≤ t + ((min q cur.remaining_time : Int) : ℚ) + cs)),
      0 < p.remaining_time :=
    fun p hp => hpend p ((List.takeWhile_sublist _).subset hp)
  have hdrop : ∀ p ∈ pending.dropWhile (fun p =>
      decide ((p.at_ : ℚ) ≤ t + ((min q cur.remaining_time : Int) : ℚ) + cs)),
      0 < p.remaining_time :=
    fun p hp => hpend p ((List.dropWhile_sublist _).subset hp)
  simp only [rrDispatch, ite_update_rem]
  split
  · rename_i hpos
    refine ⟨?_, hdrop, ?_⟩
    · intro x hx
      rcases List.mem_append.mp hx with h1 | h2
      · rcases List.mem_append.mp h1 with h3 | h4
        · exact hqueue x h3
        · exact htake x h4
      · simp only [List.mem_cons, List.not_mem_nil, or_false] at h2
        subst h2
        exact hpos
    · dsimp only
      rw [sumRem_append, sumRem_append, sumRem_cons]
      have hnil : sumRem ([] : List Process) = 0 := rfl
      have hexec2 : min q cur.remaining_time ≤ cur.remaining_time := min_le_right _ _
      rw [hnil]
      dsimp only
      omega
  · rename_i hpos
    refine ⟨?_, hdrop, ?_⟩
    · intro x hx
      rcases List.mem_append.mp hx with h1 | h2
      · exact hqueue x h1
      · exact htake x h2
    · dsimp only
      rw [sumRem_append]
      have hexec2 : min q cur.remaining_time ≤ cur.remaining_time := min_le_right _ _
      omega

theorem rr_total (ps : List Process) (cs : ℚ) (q : Int) (hq : 0 < q)
    (hrem : ∀ p ∈ ps, 0 < p.remaining_time) : (rr_scheduling ps cs q).isSome := by
  unfold rr_scheduling
  rw [if_neg (not_le.mpr hq)]
  refine loopFuel_isSome_of_measure (rrBody cs q)
    (fun s => (∀ p ∈ s.queue, 0 < p.remaining_time) ∧
      (∀ p ∈ s.pending, 0 < p.remaining_time))
    (fun s => sumRem s.queue + sumRem s.pending) ?_ _ _
    ⟨fun p hp => hrem p (List.mem_of_mem_filter hp),
      fun p hp => hrem p (List.mem_of_mem_filter hp)⟩ ?_
  · rintro ⟨queue, pending, n, t, completed, acc⟩ s' ⟨hqI, hpI⟩ hb
    cases queue with
    | nil =>
      cases pending with
      | nil => simp [rrBody] at hb
      | cons p pl =>
        simp only [rrBody] at hb
        obtain rfl := Sum.inr.inj hb
        have h := rrDispatch_measure cs q p [] pl n (p.at_ : ℚ) completed acc
          hq (hpI p (List.mem_cons_self p pl))
          (fun x hx => absurd hx (List.not_mem_nil x))
          (fun x hx => hpI x (List.mem_cons_of_mem _ hx))
        refine ⟨⟨h.1, h.2.1⟩, ?_⟩
        have h3 := h.2.2
        dsimp only
        rw [sumRem_cons]
        simp only [sumRem, List.map_nil, List.sum_nil] at h3 ⊢
        omega
    | cons c rest =>
      simp only [rrBody] at hb
      obtain rfl := Sum.inr.inj hb
      have h := rrDispatch_measure cs q c rest pending n t completed acc
        hq (hqI c (List.mem_cons_self c rest))
        (fun x hx => hqI x (List.mem_cons_of_mem _ hx)) hpI
      refine ⟨⟨h.1, h.2.1⟩, ?_⟩
      have h3 := h.2.2
      dsimp only
      rw [sumRem_cons]
      omega
  · dsimp only
    have := sumRem_filter_split (fun p => decide ((p.at_ : ℚ) ≤ 0)) ps
    simp only [decide_not]
    omega

theorem srtf_measure_complete {l : List Process} {a b : Process} {f g : Nat}
    (ha : a ∈ l) (hb : b.remaining_time = 0) (hapos : 0 < a.remaining_time)
    (hf : f ≤ 1) :
    2 * sumRem (pyRemove (pyUpdate l a b) b) + f < 2 * sumRem l + g := by
  have h1 : sumRem (pyRemove (pyUpdate l a b) b) < sumRem l :=
    lt_of_le_of_lt (sumRem_pyRemove_le _ _) (sumRem_pyUpdate_lt ha (by omega))
  omega

theorem srtf_measure_incomplete {l : List Process} {a b : Process} {f g : Nat}
    (ha : a ∈ l) (hb : b.remaining_time.toNat < a.remaining_time.toNat) (hf : f ≤ 1) :
    2 * sumRem (pyUpdate l a b) + f < 2 * sumRem l + g := by
  have h1 := sumRem_pyUpdate_lt ha hb
  omega

theorem srtf_total (ps : List Process) (cs : ℚ) (q : Int) (hq : 0 < q)
    (hrem : ∀ p ∈ ps, 0 < p.remaining_time) : (srtf_scheduling ps cs q).isSome := by
  unfold srtf_scheduling
  refine loopFuel_isSome_of_measure (srtfBody cs q)
    (fun s => ∀ p ∈ s.procs, 0 < p.remaining_time)
    (fun s => 2 * sumRem s.procs + (if eligibleAt s.t s.procs = [] then 1 else 0))
    ?_ _ _ (by simpa [srtfInitState] using hrem) ?_
  · rintro ⟨procs, n, t, completed, acc⟩ s' hI hb
    simp only [srtfBody, ite_update_rem] at hb
    split at hb
    · simp at hb
    · split at hb
      · rename_i helig
        split at hb
        · simp at hb
        · rename_i m hmin
          obtain rfl := Sum.inr.inj hb
          refine ⟨hI, ?_⟩
          dsimp only
          have h1 := List.min?_mem (fun a b => min_choice a b) hmin
          simp only [List.mem_map] at h1
          obtain ⟨pm, hpm, hpmeq⟩ := h1
          have hne : eligibleAt (m : ℚ) procs ≠ [] := by
            intro hnil
            simp only [eligibleAt] at hnil
            have h2 := List.filter_eq_nil_iff.mp hnil pm hpm
            simp only [decide_eq_true_eq, hpmeq] at h2
            exact h2 le_rfl
          rw [if_neg hne, if_pos helig]
          omega
      · rename_i e es helig
        have hsel_mem : pyMinBy (fun x => x.remaining_time) e es ∈ procs := by
          have h1 := pyMinBy_mem (fun x => x.remaining_time) e es
          rw [← helig] at h1
          exact List.mem_of_mem_filter h1
        have hselpos : 0 < (pyMinBy (fun x => x.remaining_time) e es).remaining_time :=
          hI _ hsel_mem
        have hexec : 1 ≤ min q (pyMinBy (fun x => x.remaining_time) e es).remaining_time :=
          le_min (by omega) (by omega)
        have hexec2 : min q (pyMinBy (fun x => x.remaining_time) e es).remaining_time ≤
            (pyMinBy (fun x => x.remaining_time) e es).remaining_time := min_le_right _ _
        split at hb
        · rename_i hzero
          obtain rfl := Sum.inr.inj hb
          constructor
          · intro x hx
            refine hI x (pyRemove_pyUpdate_mem ?_ x hx)
            intro hmem
            have h0 := hI _ hmem
            dsimp only at h0
            omega
          · dsimp only
            refine srtf_measure_complete hsel_mem ?_ hselpos ?_
            · (try dsimp only)
              omega
            · repeat' split
              all_goals omega
        · rename_i hnz
          obtain rfl := Sum.inr.inj hb
          constructor
          · intro x hx
            rcases pyUpdate_mem x hx with h1 | h2
            · exact hI x h1
            · subst h2
              dsimp only
              omega
          · dsimp only
            refine srtf_measure_incomplete hsel_mem ?_ ?_
            · (try dsimp only)
              omega
            · repeat' split
              all_goals omega
  · dsimp only [srtfInitState]
    split <;> omega

/-- C9: every policy engine terminates on every valid input — the
fuels built into the five schedulers are proved sufficient.  FCFS
consumes one process per iteration; SPN and HRRN either dispatch
(shrinking the list) or advance the idle clock by one (shrinking the
largest ceiling arrival gap); RR removes at least one unit of total
remaining work per iteration; SRTF alternates jumps to the next
arrival (immediately followed by a dispatch) with dispatches that
remove at least one unit of remaining work. -/
theorem C9_termination :
    ∀ (ps : List Process) (cs : ℚ) (q : Int), ValidInput ps cs q →
      (fcfs_scheduling ps cs).isSome ∧ (spn_scheduling ps cs).isSome ∧
      (hrrn_scheduling ps cs).isSome ∧ (rr_scheduling ps cs q).isSome ∧
      (srtf_scheduling ps cs q).isSome := by
  intro ps cs q hv
  obtain ⟨hne, hcs, hq, hall⟩ := hv
  refine ⟨fcfs_total ps cs, spn_total ps cs hcs (fun p hp => (hall p hp).1),
    hrrn_total ps cs hcs (fun p hp => (hall p hp).1),
    rr_total ps cs q hq (fun p hp => ?_), srtf_total ps cs q hq (fun p hp => ?_)⟩
  · have h := hall p hp
    rw [h.2.2.1]
    exact h.1
  · have h := hall p hp
    rw [h.2.2.1]
    exact h.1

/-- C9, witnessed at a concrete valid input with fractional context
switch. -/
theorem C9_witness :
    ValidInput [mkProcess "T" 2 1] (1 / 2) 2 ∧
    ((fcfs_scheduling [mkProcess "T" 2 1] (1 / 2)).isSome ∧
      (spn_scheduling [mkProcess "T" 2 1] (1 / 2)).isSome ∧
      (hrrn_scheduling [mkProcess "T" 2 1] (1 / 2)).isSome ∧
      (rr_scheduling [mkProcess "T" 2 1] (1 / 2) 2).isSome ∧
      (srtf_scheduling [mkProcess "T" 2 1] (1 / 2) 2).isSome) := by
  have hv : ValidInput [mkProcess "T" 2 1] (1 / 2) 2 :=
    of_decide_eq_true (by with_unfolding_all rfl)
  exact ⟨hv, C9_termination _ _ _ hv⟩

/-- C10: for a single process arriving at 0 with burst `cbt ≤ quantum`,
all five engines produce the identical one-slice schedule
`(pid, 0, cbt)`, yet RR and SRTF finalize
`turnaround = (slice end + contextSwitch) - arrival` (the clock is
advanced by the context switch before the metrics are taken, lines
681/691 and 751/755), while FCFS, SPN and HRRN finalize
`turnaround = slice end - arrival` (lines 498, 554, 614): for the same
schedule the two groups differ in turnaround and waiting by exactly the
context switch. -/
theorem C10_completion_point :
    ∀ (pid : String) (cbt : Int) (cs : ℚ) (q : Int), 0 < cbt → 0 ≤ cs → cbt ≤ q →
      ((fcfs_scheduling [mkProcess pid cbt 0] cs).map (fun r => r.gantt) =
          some [(pid, 0, (cbt : ℚ))] ∧
        (spn_scheduling [mkProcess pid cbt 0] cs).map (fun r => r.gantt) =
          some [(pid, 0, (cbt : ℚ))] ∧
        (hrrn_scheduling [mkProcess pid cbt 0] cs).map (fun r => r.gantt) =
          some [(pid, 0, (cbt : ℚ))] ∧
        (rr_scheduling [mkProcess pid cbt 0] cs q).map (fun r => r.gantt) =
          some [(pid, 0, (cbt : ℚ))] ∧
        (srtf_scheduling [mkProcess pid cbt 0] cs q).map (fun r => r.gantt) =
          some [(pid, 0, (cbt : ℚ))]) ∧
      ((fcfs_scheduling [mkProcess pid cbt 0] cs).map
          (fun r => r.completed.map (fun p => (p.turnaround_time, p.waiting_time))) =
          some [((cbt : ℚ), 0)] ∧
        (spn_scheduling [mkProcess pid cbt 0] cs).map
          (fun r => r.completed.map (fun p => (p.turnaround_time, p.waiting_time))) =
          some [((cbt : ℚ), 0)] ∧
        (hrrn_scheduling [mkProcess pid cbt 0] cs).map
          (fun r => r.completed.map (fun p => (p.turnaround_time, p.waiting_time))) =
          some [((cbt : ℚ), 0)] ∧
        (rr_scheduling [mkProcess pid cbt 0] cs q).map
          (fun r => r.completed.map (fun p => (p.turnaround_time, p.waiting_time))) =
          some [((cbt : ℚ) + cs, cs)] ∧
        (srtf_scheduling [mkProcess pid cbt 0] cs q).map
          (fun r => r.completed.map (fun p => (p.turnaround_time, p.waiting_time))) =
          some [((cbt : ℚ) + cs, cs)]) := by
  intro pid cbt cs q hcbt _hcs hq
  obtain ⟨m, hm⟩ : ∃ m, cbt.toNat = m + 1 := ⟨cbt.toNat - 1, by omega⟩
  have hs1 : sumRem [mkProcess pid cbt 0] = m + 1 := by simp [sumRem, mkProcess, hm]
  have hs2 : 2 * sumRem [mkProcess pid cbt 0] + 2 = 2 * m + 4 := by
    rw [hs1]
    omega
  refine ⟨⟨?_, ?_, ?_, ?_, ?_⟩, ?_, ?_, ?_, ?_, ?_⟩
  · simp [fcfs_scheduling, List.insertionSort, List.orderedInsert, loopFuel, fcfsBody,
      mkProcess, pushMetrics, emptyAcc]
  · simp [spn_scheduling, loopFuel, spnBody, eligibleAt, pyMinBy, pyRemove,
      mkProcess, pushMetrics, emptyAcc, maxGap, gapNat]
  · simp [hrrn_scheduling, loopFuel, hrrnBody, eligibleAt, pyMaxBy, pyRemove,
      mkProcess, pushMetrics, emptyAcc, maxGap, gapNat]
  · rw [rr_scheduling, if_neg (by omega), hs1]
    simp [loopFuel, rrBody, rrDispatch, mkProcess, pushMetrics, emptyAcc,
      min_eq_right hq, sub_self]
  · rw [srtf_scheduling, hs2]
    simp [loopFuel, srtfBody, srtfInitState, eligibleAt, pyMinBy, pyUpdate, pyRemove,
      mkProcess, pushMetrics, emptyAcc, min_eq_right hq, sub_self]
  · simp [fcfs_scheduling, List.insertionSort, List.orderedInsert, loopFuel, fcfsBody,
      mkProcess, pushMetrics, emptyAcc]
  · simp [spn_scheduling, loopFuel, spnBody, eligibleAt, pyMinBy, pyRemove,
      mkProcess, pushMetrics, emptyAcc, maxGap, gapNat]
  · simp [hrrn_scheduling, loopFuel, hrrnBody, eligibleAt, pyMaxBy, pyRemove,
      mkProcess, pushMetrics, emptyAcc, maxGap, gapNat]
  · rw [rr_scheduling, if_neg (by omega), hs1]
    simp [loopFuel, rrBody, rrDispatch, mkProcess, pushMetrics, emptyAcc,
      min_eq_right hq, sub_self]
  · rw [srtf_scheduling, hs2]
    simp [loopFuel, srtfBody, srtfInitState, eligibleAt, pyMinBy, pyUpdate, pyRemove,
      mkProcess, pushMetrics, emptyAcc, min_eq_right hq, sub_self]

/-- C10, witnessed: burst 4, context switch 1/2, quantum 5 — the
non-preemptive group reports turnaround 4 while RR reports 4 + 1/2. -/
theorem C10_witness :
    (0 : Int) < 4 ∧ (0 : ℚ) ≤ 1 / 2 ∧ (4 : Int) ≤ 5 ∧
    (fcfs_scheduling [mkProcess "P" 4 0] (1 / 2)).map
      (fun r => r.completed.map (fun p => (p.turnaround_time, p.waiting_time))) =
      some [(((4 : Int) : ℚ), 0)] ∧
    (rr_scheduling [mkProcess "P" 4 0] (1 / 2) 5).map
      (fun r => r.completed.map (fun p => (p.turnaround_time, p.waiting_time))) =
      some [(((4 : Int) : ℚ) + 1 / 2, 1 / 2)] := by
  have h := C10_completion_point "P" 4 (1 / 2) 5 (by norm_num) (by norm_num) (by norm_num)
  exact ⟨by norm_num, by norm_num, by norm_num, h.2.1, h.2.2.2.2.1⟩
